import Mathlib

/-!
Shallow embedding of the Thompsons-Super-Search search engine.

Sources embedded here:
* `src/web/routes.py` — `parse_search_terms`, `search_index`, `extract_context`,
  `smart_search_index`, `load_project_index`;
* `src/web/llm_query.py` — `sanitize_term`, `validate_query_plan`,
  `_get_cache_key`, `_get_cached_plan`, `_cache_plan`, `parse_query_with_llm`.

Modelling conventions:
* Python strings are `List Char` (`Str`); `str.lower()` is character-wise
  `Char.toLower`; Python's whitespace class (used by `str.strip`, `str.split`
  and the regex class `backslash-s`) is modelled by `Char.isWhitespace`.
* Python floats that only ever hold exact decimal values (`confidence`,
  relevance scores, `time.time()` stamps) are modelled by `Rat`/`Nat`.
* The per-project global index dictionary is passed explicitly: search
  functions take the loaded document list as an argument.
-/

/-- Python strings, modelled as lists of characters. -/
abbrev Str := List Char

/-- `str.lower()`, modelled character-wise. -/
def lowerStr (s : Str) : Str := s.map Char.toLower

/-- Python `text.find(sub)`: index of the leftmost occurrence of `needle` in
`hay`, `none` standing for Python's `-1`.  (`"".find` style: an empty needle is
found at index 0, as in Python.) -/
def findSub (needle : Str) : Str → Option Nat
  | [] => if needle.isPrefixOf ([] : Str) then some 0 else none
  | c :: rest =>
    if needle.isPrefixOf (c :: rest) then some 0
    else (findSub needle rest).map (· + 1)

/-- Python substring containment `needle in hay`. -/
def pyIn (needle hay : Str) : Bool := (findSub needle hay).isSome

/-- Python `hay.count(needle)`: number of non-overlapping occurrences, scanning
left to right (an empty needle counts `len(hay) + 1` times, as in Python).
Written with an explicit step-count to keep the recursion structural (hence
kernel-reducible); every step consumes at least one character, so
`hay.length + 1` steps always suffice. -/
def countOccFuel (needle : Str) : Nat → Str → Nat
  | 0, _ => 0
  | _ + 1, [] => if needle = [] then 1 else 0
  | fuel + 1, c :: rest =>
    if needle = [] then rest.length + 2
    else if needle.isPrefixOf (c :: rest) then
      1 + countOccFuel needle fuel (rest.drop (needle.length - 1))
    else countOccFuel needle fuel rest

/-- Python `hay.count(needle)`. -/
def countOcc (needle hay : Str) : Nat := countOccFuel needle (hay.length + 1) hay

/-- Python `s.strip()` (whitespace strip on both ends). -/
def pyStrip (s : Str) : Str :=
  ((s.dropWhile Char.isWhitespace).reverse.dropWhile Char.isWhitespace).reverse

/-- Python `s.split()` with no separator: maximal runs of non-whitespace,
empty pieces discarded. -/
def pySplit (s : Str) : List Str :=
  (s.splitOnP Char.isWhitespace).filter (· ≠ [])

/-- The double-quote character (written by code to keep character literals
simple). -/
def dquote : Char := Char.ofNat 34

/-- The quoted-phrase pass of `parse_search_terms`: the leftmost,
non-overlapping matches of the regex `dquote ([^dquote]+) dquote` over the
query.  Returns the list of captured phrase contents together with the text
left over once the full matches are removed (the behaviour of `re.findall`
followed by `re.sub` with the same pattern).  Written with an explicit
step-count to keep the recursion structural (kernel-reducible); each step
consumes at least one character, so the input's length suffices as fuel. -/
def splitQuotedFuel : Nat → Str → List Str × Str
  | 0, s => ([], s)
  | _ + 1, [] => ([], [])
  | fuel + 1, c :: rest =>
    if c = dquote then
      let content := rest.takeWhile (fun x => x ≠ dquote)
      match rest.dropWhile (fun x => x ≠ dquote) with
      | _ :: rest' =>
        if content = [] then
          -- the regex needs at least one non-quote character: no match starts
          -- here, the scan restarts at the next position
          let qr := splitQuotedFuel fuel rest
          (qr.1, c :: qr.2)
        else
          let qr := splitQuotedFuel fuel rest'
          (content :: qr.1, qr.2)
      | [] =>
        -- no closing quote anywhere to the right: no match starts here
        let qr := splitQuotedFuel fuel rest
        (qr.1, c :: qr.2)
    else
      let qr := splitQuotedFuel fuel rest
      (qr.1, c :: qr.2)

/-- The quoted-phrase extraction (see `splitQuotedFuel`). -/
def splitQuoted (s : Str) : List Str × Str := splitQuotedFuel s.length s

/-- `parse_search_terms` (routes.py): extract quoted phrases, then split the
remaining text on whitespace; all terms lowercased. -/
def parse_search_terms (query : Str) : List Str :=
  let q := pyStrip query
  let qr := splitQuoted q
  let remaining := pyStrip qr.2
  qr.1.map lowerStr ++ (pySplit remaining).map lowerStr

/-- A page record, with fields as read by the search loops (after the `.get`
defaults applied to the raw JSON object). -/
structure Page where
  page_num : Nat
  text : Str
  sheet_name : Str
deriving DecidableEq

/-- A document of the in-memory index.  `file_type := none` models a JSON
object with no `file_type` key. -/
structure Document where
  filename : Str
  path : Str
  file_type : Option Str
  pages : List Page
deriving DecidableEq

/-- `doc.get('file_type', 'pdf')`. -/
def docFileType (d : Document) : Str := d.file_type.getD ("pdf".data)

/-- The guard `if file_type_filter and doc_type != file_type_filter: continue`.
Python truthiness: a `None` or empty-string filter disables filtering. -/
def passesTypeFilter (filt : Option Str) (d : Document) : Bool :=
  match filt with
  | none => true
  | some f => f == [] || docFileType d == f

/-- `extract_context` (routes.py): a window of `context_chars` characters on
each side of the first occurrence of `query` in the lowercased text, with
ellipsis markers when truncated; first 200 characters as a fallback when the
term does not occur. -/
def extract_context (text query : Str) (context_chars : Nat) : Str :=
  match findSub query (lowerStr text) with
  | none => if 200 < text.length then text.take 200 ++ "...".data else text
  | some pos =>
    let start := pos - context_chars
    let stop := min text.length (pos + query.length + context_chars)
    let snippet := (text.drop start).take (stop - start)
    let snippet := if 0 < start then "...".data ++ snippet else snippet
    if stop < text.length then snippet ++ "...".data else snippet

/-- One entry of the keyword-search result list. -/
structure SearchResult where
  filename : Str
  filepath : Str
  page : Nat
  sheet_name : Str
  file_type : Str
  context : Str
  match_count : Nat
deriving DecidableEq

/-- The `all(term in text_lower for term in search_terms)` AND-match test. -/
def pageMatches (terms : List Str) (textLower : Str) : Bool :=
  terms.all (fun t => pyIn t textLower)

/-- The result record appended by `search_index` for a matching page.
`terms` is non-empty at every call site (`search_terms[0]` is modelled by
`headD`). -/
def mkSearchResult (terms : List Str) (d : Document) (pg : Page) : SearchResult :=
  { filename := d.filename
    filepath := d.path
    page := pg.page_num
    sheet_name := pg.sheet_name
    file_type := docFileType d
    context := extract_context pg.text (terms.headD []) 100
    match_count := (terms.map (fun t => countOcc t (lowerStr pg.text))).sum }

/-- The unsorted result list built by the nested `for doc ... for page_info`
loops of `search_index`. -/
def keywordMatchList (terms : List Str) (filt : Option Str) (index : List Document) :
    List SearchResult :=
  index.flatMap (fun d =>
    if passesTypeFilter filt d then
      (d.pages.filter (fun pg => pageMatches terms (lowerStr pg.text))).map
        (mkSearchResult terms d)
    else [])

/-- Python's `results.sort(key=lambda x, reverse=True)` on `match_count` is a
stable descending sort; a stable sort's output is unique, and
`List.insertionSort` with this relation is stable, so it produces the same
list. -/
def sortByMatchCountDesc (l : List SearchResult) : List SearchResult :=
  List.insertionSort (fun a b => b.match_count ≤ a.match_count) l

/-- The response dictionary returned by both search functions (keyword shape). -/
structure SearchResponse where
  query : Str
  total_matches : Nat
  documents : Nat
  results : List SearchResult
  page : Nat
  total_pages : Nat
  has_more : Bool
deriving DecidableEq

/-- The early-return empty response of `search_index`. -/
def emptyResponse (q : Str) (page : Nat) : SearchResponse :=
  { query := q, total_matches := 0, documents := 0, results := []
    page := page, total_pages := 0, has_more := false }

/-- `search_index` (routes.py).  The document index is passed explicitly
(Python reads it from the per-project global); the Flask handler supplies
`page ≥ 1` and `per_page = 20`. -/
def search_index (query : Str) (index : List Document) (page per_page : Nat)
    (file_type_filter : Option Str) : SearchResponse :=
  if query = [] ∨ pyStrip query = [] then emptyResponse [] page
  else
    let search_terms := parse_search_terms query
    if search_terms = [] then emptyResponse query page
    else
      let results := sortByMatchCountDesc (keywordMatchList search_terms file_type_filter index)
      let total_matches := results.length
      let total_pages := (total_matches + per_page - 1) / per_page
      let start_idx := (page - 1) * per_page
      { query := query
        total_matches := total_matches
        documents := ((keywordMatchList search_terms file_type_filter index).map
          (·.filename)).dedup.length
        results := (results.drop start_idx).take per_page
        page := page
        total_pages := total_pages
        has_more := decide (start_idx + per_page < total_matches) }

/-- The validated, typed query plan (llm_query.py `QueryPlan`).  `confidence`
is a Python float holding an exact decimal value, modelled by `Rat`. -/
structure QueryPlan where
  required_terms : List Str
  interpretation : Str
  optional_terms : List Str
  person_names : List Str
  locations : List Str
  date_hints : List Str
  confidence : Rat
  schema_version : Str
deriving DecidableEq

/-- One entry of the smart-search result list.  All score contributions are
integers, so the float score is modelled by `Nat` (`int(score)` is exact). -/
structure SmartResult where
  filename : Str
  filepath : Str
  page : Nat
  sheet_name : Str
  file_type : Str
  context : Str
  match_count : Nat
  relevance_score : Nat
deriving DecidableEq

/-- The relevance-score computation of `smart_search_index` for one page. -/
def smartScore (plan : QueryPlan) (textLower : Str) : Nat :=
  min ((plan.required_terms.map (fun t => min (countOcc t textLower * 10) 30)).sum
    + 5 * (plan.optional_terms.filter (fun t => pyIn t textLower)).length
    + 15 * (plan.person_names.filter (fun t => pyIn t textLower)).length
    + 10 * (plan.locations.filter (fun t => pyIn t textLower)).length) 100

/-- The result record appended by `smart_search_index` for a matching page. -/
def mkSmartResult (plan : QueryPlan) (d : Document) (pg : Page) : SmartResult :=
  { filename := d.filename
    filepath := d.path
    page := pg.page_num
    sheet_name := pg.sheet_name
    file_type := docFileType d
    context := extract_context pg.text (plan.required_terms.headD []) 100
    match_count := smartScore plan (lowerStr pg.text)
    relevance_score := smartScore plan (lowerStr pg.text) }

/-- The unsorted result list built by the loops of `smart_search_index`. -/
def smartMatchList (plan : QueryPlan) (filt : Option Str) (index : List Document) :
    List SmartResult :=
  index.flatMap (fun d =>
    if passesTypeFilter filt d then
      (d.pages.filter (fun pg => pageMatches plan.required_terms (lowerStr pg.text))).map
        (mkSmartResult plan d)
    else [])

/-- Stable descending sort on `relevance_score` (see `sortByMatchCountDesc`). -/
def sortByRelevanceDesc (l : List SmartResult) : List SmartResult :=
  List.insertionSort (fun a b => b.relevance_score ≤ a.relevance_score) l

/-- The response dictionary of `smart_search_index`. -/
structure SmartResponse where
  query : Str
  total_matches : Nat
  documents : Nat
  results : List SmartResult
  page : Nat
  total_pages : Nat
  has_more : Bool
deriving DecidableEq

/-- The early-return empty response of `smart_search_index`. -/
def emptySmartResponse (page : Nat) : SmartResponse :=
  { query := [], total_matches := 0, documents := 0, results := []
    page := page, total_pages := 0, has_more := false }

/-- `' '.join(required_terms)`. -/
def joinSpace (l : List Str) : Str := List.intercalate [' '] l

/-- `smart_search_index` (routes.py). -/
def smart_search_index (plan : QueryPlan) (index : List Document) (page per_page : Nat)
    (file_type_filter : Option Str) : SmartResponse :=
  if plan.required_terms = [] then emptySmartResponse page
  else
    let results := sortByRelevanceDesc (smartMatchList plan file_type_filter index)
    let total_matches := results.length
    let total_pages := (total_matches + per_page - 1) / per_page
    let start_idx := (page - 1) * per_page
    { query := joinSpace plan.required_terms
      total_matches := total_matches
      documents := ((smartMatchList plan file_type_filter index).map
        (·.filename)).dedup.length
      results := (results.drop start_idx).take per_page
      page := page
      total_pages := total_pages
      has_more := decide (start_idx + per_page < total_matches) }

/-- JSON-shaped Python values, the possible outputs of `json.loads` feeding
`validate_query_plan`. -/
inductive PyVal where
  | none
  | bool (b : Bool)
  | int (n : Int)
  | float (q : Rat)
  | str (s : Str)
  | list (l : List PyVal)
  | dict (l : List (Str × PyVal))

/-- The exceptions `validate_query_plan` and its callers can raise.  Message
payloads are irrelevant to the claims and omitted. -/
inductive PyErr where
  | typeError
  | valueError
  | llmValidationError
  | llmError
deriving DecidableEq

/-- `d.get(k, default)` on a JSON object (keys are unique). -/
def pyGet (d : List (Str × PyVal)) (k : Str) (dflt : PyVal) : PyVal :=
  match d.find? (fun kv => kv.1 == k) with
  | some kv => kv.2
  | Option.none => dflt

/-- Python truthiness of a JSON-shaped value. -/
def pyTruthy : PyVal → Bool
  | .none => false
  | .bool b => b
  | .int n => n != 0
  | .float q => q != 0
  | .str s => !s.isEmpty
  | .list l => !l.isEmpty
  | .dict l => !l.isEmpty

/-- `isinstance(v, str)`. -/
def isStrVal : PyVal → Bool
  | .str _ => true
  | _ => false

/-- Python iteration `for x in v`: lists yield their elements, strings yield
1-character strings, dicts yield their keys; other values raise `TypeError`. -/
def pyIter : PyVal → Except PyErr (List PyVal)
  | .list l => .ok l
  | .str s => .ok (s.map (fun c => .str [c]))
  | .dict l => .ok (l.map (fun kv => PyVal.str kv.1))
  | _ => .error .typeError

/-- The character class kept by the `re.sub` of `sanitize_term`: ASCII
letters and digits, whitespace, and the hyphen. -/
def keptChar (c : Char) : Bool := c.isAlphanum || c.isWhitespace || c == '-'

/-- `sanitize_term` (llm_query.py) on a string: drop disallowed characters,
strip, lowercase. -/
def sanitize_term (term : Str) : Str :=
  lowerStr (pyStrip (term.filter keptChar))

/-- `sanitize_term` applied to an arbitrary value: falsy values return the
empty string (the `if not term` early return); truthy non-strings reach
`re.sub`, which raises `TypeError`. -/
def sanitizeTermVal (v : PyVal) : Except PyErr Str :=
  if pyTruthy v then
    match v with
    | .str s => .ok (sanitize_term s)
    | _ => .error .typeError
  else .ok []

/-- Left-to-right `sanitize_term` over the elements of a list, stopping at
the first exception (the comprehension's evaluation order). -/
def sanitizeAll : List PyVal → Except PyErr (List Str)
  | [] => .ok []
  | v :: vs => do
    let s ← sanitizeTermVal v
    let rest ← sanitizeAll vs
    return s :: rest

/-- The comprehension `[sanitize_term(t) for t in xs if sanitize_term(t)]`
preceded by the `isinstance(xs, str)` single-element wrap. -/
def sanitizedTerms (v : PyVal) : Except PyErr (List Str) := do
  let v := if isStrVal v then PyVal.list [v] else v
  let elems ← pyIter v
  let ss ← sanitizeAll elems
  return ss.filter (fun s => s ≠ [])

/-- Digit run to number. -/
def digitsToNat (s : Str) : Nat := s.foldl (fun acc c => acc * 10 + (c.toNat - 48)) 0

/-- Modelled subset of Python `float(str)`: optional sign, then decimal digits
with an optional fractional part.  (Exponents, `inf`/`nan`, underscores and
surrounding whitespace — which `float` also accepts — are outside the model;
every string the claims exercise is a plain decimal or non-numeric.) -/
def parseDecimal (s : Str) : Option Rat :=
  let sr : Rat × Str :=
    match s with
    | c :: r => if c = '-' then (-1, r) else if c = '+' then (1, r) else (1, s)
    | [] => (1, s)
  let intPart := sr.2.takeWhile Char.isDigit
  let rest := sr.2.dropWhile Char.isDigit
  match rest with
  | [] => if intPart = [] then Option.none else some (sr.1 * (digitsToNat intPart : Rat))
  | c :: frac =>
    if c = '.' then
      let fracDigits := frac.takeWhile Char.isDigit
      if ¬ (frac.dropWhile Char.isDigit).isEmpty then Option.none
      else if intPart = [] ∧ fracDigits = [] then Option.none
      else some (sr.1 * ((digitsToNat intPart : Rat)
        + (digitsToNat fracDigits : Rat) / ((10 : Rat) ^ fracDigits.length)))
    else Option.none

/-- Python `float(v)`. -/
def pyFloat : PyVal → Except PyErr Rat
  | .int n => .ok n
  | .float q => .ok q
  | .bool b => .ok (if b then 1 else 0)
  | .str s =>
    match parseDecimal s with
    | some q => .ok q
    | Option.none => .error .valueError
  | _ => .error .typeError

/-- Python `str(v)`.  The exact rendering of nested containers is irrelevant
to every claim (only `interpretation` and `date_hints` pass through `str`);
containers are rendered by their brackets alone. -/
def pyStrOf : PyVal → Str
  | .none => "None".data
  | .bool b => if b then "True".data else "False".data
  | .int n => (toString n).data
  | .float q => (toString q).data
  | .str s => s
  | .list _ => ['[', ']']
  | .dict _ => [Char.ofNat 123, Char.ofNat 125]

/-- `[str(d).strip()[:20] for d in date_hints if d][:2]` with the
`isinstance` single-element wrap. -/
def dateHintsOf (v : PyVal) : Except PyErr (List Str) := do
  let v := if isStrVal v then PyVal.list [v] else v
  let elems ← pyIter v
  return ((elems.filter pyTruthy).map (fun x => (pyStrip (pyStrOf x)).take 20)).take 2

/-- `validate_query_plan` (llm_query.py): sanitize every term list, fall back
to person names / locations when no required terms survive, raise
`LLMValidationError` when none do, cap the optional list so the total fits 20
(only optional terms are trimmed), clamp confidence to `[0, 1]`. -/
def validate_query_plan (plan_dict : List (Str × PyVal)) : Except PyErr QueryPlan := do
  let required0 ← sanitizedTerms (pyGet plan_dict ("required_terms".data) (.list []))
  let optional0 ← sanitizedTerms (pyGet plan_dict ("optional_terms".data) (.list []))
  let optional1 := optional0.take 15
  let personsAll ← sanitizedTerms (pyGet plan_dict ("person_names".data) (.list []))
  let person_names := personsAll.take 3
  let locationsAll ← sanitizedTerms (pyGet plan_dict ("locations".data) (.list []))
  let locations := locationsAll.take 3
  let required :=
    if required0 = [] then
      if person_names ≠ [] then person_names
      else if locations ≠ [] then locations
      else []
    else required0
  if required = [] then Except.error PyErr.llmValidationError
  else
    let date_hints ← dateHintsOf (pyGet plan_dict ("date_hints".data) (.list []))
    let total_terms := required.length + optional1.length + person_names.length + locations.length
    let optional2 :=
      if 20 < total_terms then
        optional1.take (20 - (required.length + person_names.length + locations.length))
      else optional1
    let confidence0 ← pyFloat (pyGet plan_dict ("confidence".data) (.float (4 / 5)))
    let confidence := max 0 (min 1 confidence0)
    let interpretation := (pyStrOf (pyGet plan_dict ("interpretation".data) (.str []))).take 200
    return { required_terms := required
             interpretation := interpretation
             optional_terms := optional2
             person_names := person_names
             locations := locations
             date_hints := date_hints
             confidence := confidence
             schema_version := "v1".data }

/-- `dict.get`-style lookup on an insertion-ordered association list. -/
def dictGet? : List (Str × α) → Str → Option α
  | [], _ => Option.none
  | kv :: rest, k => if kv.1 = k then some kv.2 else dictGet? rest k

/-- `d[k] = v` on a Python dict: update in place when present (keeping the
key's insertion position), append otherwise. -/
def dictSet : List (Str × α) → Str → α → List (Str × α)
  | [], k, v => [(k, v)]
  | kv :: rest, k, v => if kv.1 = k then (kv.1, v) :: rest else kv :: dictSet rest k v

/-- `del d[k]`. -/
def dictDel : List (Str × α) → Str → List (Str × α)
  | [], _ => []
  | kv :: rest, k => if kv.1 = k then dictDel rest k else kv :: dictDel rest k

/-- `min(stamps, key=stamps.get)` over a non-empty dict: the first key (in
insertion order) holding the minimal value. -/
def oldestKeyAux (best : Str × Rat) : List (Str × Rat) → Str
  | [] => best.1
  | kv :: rest => if kv.2 < best.2 then oldestKeyAux kv rest else oldestKeyAux best rest

/-- `min` over the timestamp dict (`none` on an empty dict, where Python would
raise; unreachable at the call site). -/
def oldestKey : List (Str × Rat) → Option Str
  | [] => Option.none
  | kv :: rest => some (oldestKeyAux kv rest)

/-- The module-level `_query_cache` / `_cache_timestamps` pair of llm_query.py
(restricted to the `parse_query_with_llm` entries; `analyze_query` entries
live under distinct keys with an `analysis:` prefix).  Cache keys are md5 hex
digests of `project_id : normalized-query`; the model uses the hashed string
itself as key — identical strings hash identically, which is all the claims
need. -/
structure LLMCache where
  plans : List (Str × QueryPlan)
  stamps : List (Str × Rat)
deriving DecidableEq

/-- `_get_cache_key` (pre-hash content). -/
def cacheKey (project_id query : Str) : Str :=
  project_id ++ [':'] ++ pyStrip (lowerStr query)

/-- Default value of `SMART_SEARCH_CACHE_TTL` (seconds). -/
def SMART_SEARCH_CACHE_TTL : Rat := 600

/-- `_get_cached_plan`: return the cached plan when its age is under the TTL;
delete the entry (and return nothing) once the TTL has elapsed.  `now` is
`time.time()`. -/
def getCachedPlan (st : LLMCache) (now ttl : Rat) (project_id query : Str) :
    Option QueryPlan × LLMCache :=
  let k := cacheKey project_id query
  match dictGet? st.plans k with
  | Option.none => (Option.none, st)
  | some plan =>
    let ts := (dictGet? st.stamps k).getD 0
    if now - ts < ttl then (some plan, st)
    else (Option.none, ⟨dictDel st.plans k, dictDel st.stamps k⟩)

/-- `_cache_plan`: insert the plan under the query's key, then evict the
oldest entry when the cache exceeds 1000 entries. -/
def cachePlan (st : LLMCache) (now : Rat) (project_id query : Str) (plan : QueryPlan) :
    LLMCache :=
  let k := cacheKey project_id query
  let plans := dictSet st.plans k plan
  let stamps := dictSet st.stamps k now
  if 1000 < plans.length then
    match oldestKey stamps with
    | some k0 => ⟨dictDel plans k0, dictDel stamps k0⟩
    | Option.none => ⟨plans, stamps⟩
  else ⟨plans, stamps⟩

/-- How one call of `parse_query_with_llm` returned. -/
inductive ParseOutcome where
  | fromCache (plan : QueryPlan)
  | fromLLM (plan : QueryPlan)
  | raised (e : PyErr)
deriving DecidableEq

/-- The retry loop of `parse_query_with_llm` (up to `fuel = 3` attempts):
`llm attempt` is the JSON object parsed from the LLM response on that attempt,
or the error raised obtaining it. -/
def attemptLoop (llm : Nat → Except PyErr (List (Str × PyVal)))
    (attempt fuel : Nat) (last : PyErr) : Except PyErr QueryPlan :=
  match fuel with
  | 0 => .error last
  | fuel' + 1 =>
    match llm attempt with
    | .error e => attemptLoop llm (attempt + 1) fuel' e
    | .ok d =>
      match validate_query_plan d with
      | .ok plan => .ok plan
      | .error e => attemptLoop llm (attempt + 1) fuel' e

/-- `parse_query_with_llm` (llm_query.py).  External effects are explicit
arguments: `now` is `time.time()`, `ttl` the configured
`SMART_SEARCH_CACHE_TTL`, `apiKeyPresent` whether `OPENAI_API_KEY` is set, and
`llm` the parsed OpenAI response per retry attempt. -/
def parse_query_with_llm (st : LLMCache) (now ttl : Rat) (project_id query : Str)
    (apiKeyPresent : Bool) (llm : Nat → Except PyErr (List (Str × PyVal))) :
    ParseOutcome × LLMCache :=
  match getCachedPlan st now ttl project_id query with
  | (some plan, st') => (.fromCache plan, st')
  | (Option.none, st') =>
    if apiKeyPresent then
      match attemptLoop llm 0 3 .llmError with
      | .ok plan => (.fromLLM plan, cachePlan st' now project_id query plan)
      | .error e => (.raised e, st')
    else (.raised .llmError, st')

/-- The outcome of reading one file of a project's `texts` folder: file name
paired with the parsed JSON document, `none` when the read or `json.load`
raises (the malformed-file case, which the loader logs and skips). -/
abbrev IndexFile := Str × Option Document

/-- `filename.endswith('.json')`. -/
def isJsonName (name : Str) : Bool := ".json".data.isSuffixOf name

/-- The two aggregate metadata fields `load_project_index` always recomputes
(other keys of `metadata.json` pass through unchanged and are out of claim
scope). -/
structure IndexMetadata where
  total_docs : Nat
  total_pages : Nat
deriving DecidableEq

/-- The loading loop of `load_project_index` (routes.py lines 57–86): keep the
`.json` files that parse, defaulting a missing `file_type` to `pdf`, and
recompute the document/page totals.  The in-memory cache hit and the two
"still loading" early returns are process-state glue outside this model. -/
def load_project_index (files : List IndexFile) : List Document × IndexMetadata :=
  let index := (files.filter (fun f => isJsonName f.1)).filterMap
    (fun f => f.2.map (fun d => { d with file_type := some (docFileType d) }))
  (index,
   { total_docs := index.length
     total_pages := (index.map (fun d => d.pages.length)).sum })

/-! ### Correctness of the string-search primitives -/

/-- `pyIn` (Python's substring test) agrees with list-infix containment. -/
theorem pyIn_iff (n h : Str) : pyIn n h = true ↔ n <:+: h := by
  induction h with
  | nil =>
    by_cases hn : n.isPrefixOf ([] : Str) = true
    · have hnil : n = [] := by simpa using List.isPrefixOf_iff_prefix.mp hn
      subst hnil
      simp [pyIn, findSub]
    · have hnil : n ≠ [] := by
        intro hcon
        subst hcon
        exact hn (by simp [List.isPrefixOf_iff_prefix])
      simp only [pyIn, findSub]
      rw [if_neg hn]
      simp [List.infix_nil, hnil]
  | cons c rest ih =>
    simp only [pyIn, findSub]
    by_cases hpre : n.isPrefixOf (c :: rest) = true
    · rw [if_pos hpre]
      simp only [Option.isSome_some, true_iff]
      exact (List.isPrefixOf_iff_prefix.mp hpre).isInfix
    · rw [if_neg hpre]
      have hmap : (Option.map (· + 1) (findSub n rest)).isSome = (findSub n rest).isSome := by
        cases findSub n rest <;> rfl
      rw [hmap, List.infix_cons_iff]
      constructor
      · intro hs
        exact Or.inr (ih.mp hs)
      · rintro (hs | hs)
        · exact absurd (List.isPrefixOf_iff_prefix.mpr hs) hpre
        · exact ih.mpr hs

/-- A found position carries a genuine occurrence. -/
theorem findSub_prefix (n : Str) : ∀ (h : Str) (p : Nat),
    findSub n h = some p → n <+: h.drop p := by
  intro h
  induction h with
  | nil =>
    intro p hp
    simp only [findSub] at hp
    by_cases hn : n.isPrefixOf ([] : Str) = true
    · rw [if_pos hn] at hp
      cases hp
      exact List.isPrefixOf_iff_prefix.mp hn
    · rw [if_neg hn] at hp
      cases hp
  | cons c rest ih =>
    intro p hp
    simp only [findSub] at hp
    by_cases hpre : n.isPrefixOf (c :: rest) = true
    · rw [if_pos hpre] at hp
      cases hp
      exact List.isPrefixOf_iff_prefix.mp hpre
    · rw [if_neg hpre, Option.map_eq_some'] at hp
      obtain ⟨p', hp', hpp⟩ := hp
      subst hpp
      simpa using ih p' hp'

/-- The found position is within bounds (`pos + len(needle) ≤ len(hay)`). -/
theorem findSub_bound (n : Str) : ∀ (h : Str) (p : Nat),
    findSub n h = some p → p + n.length ≤ h.length := by
  intro h
  induction h with
  | nil =>
    intro p hp
    simp only [findSub] at hp
    by_cases hn : n.isPrefixOf ([] : Str) = true
    · rw [if_pos hn] at hp
      cases hp
      simpa using (List.isPrefixOf_iff_prefix.mp hn).length_le
    · rw [if_neg hn] at hp
      cases hp
  | cons c rest ih =>
    intro p hp
    simp only [findSub] at hp
    by_cases hpre : n.isPrefixOf (c :: rest) = true
    · rw [if_pos hpre] at hp
      cases hp
      simpa using (List.isPrefixOf_iff_prefix.mp hpre).length_le
    · rw [if_neg hpre, Option.map_eq_some'] at hp
      obtain ⟨p', hp', hpp⟩ := hp
      subst hpp
      have := ih p' hp'
      simp only [List.length_cons]
      omega

/-- The found position is the leftmost occurrence. -/
theorem findSub_least (n : Str) : ∀ (h : Str) (p : Nat),
    findSub n h = some p → ∀ j, j < p → ¬ n <+: h.drop j := by
  intro h
  induction h with
  | nil =>
    intro p hp j hj
    simp only [findSub] at hp
    by_cases hn : n.isPrefixOf ([] : Str) = true
    · rw [if_pos hn] at hp
      cases hp
      omega
    · rw [if_neg hn] at hp
      cases hp
  | cons c rest ih =>
    intro p hp j hj
    simp only [findSub] at hp
    by_cases hpre : n.isPrefixOf (c :: rest) = true
    · rw [if_pos hpre] at hp
      cases hp
      omega
    · rw [if_neg hpre, Option.map_eq_some'] at hp
      obtain ⟨p', hp', hpp⟩ := hp
      subst hpp
      match j, hj with
      | 0, _ =>
        intro hcontra
        exact hpre (List.isPrefixOf_iff_prefix.mpr (by simpa using hcontra))
      | j' + 1, hj =>
        have := ih p' hp' j' (by omega)
        simpa using this

/-- Conversely, the leftmost occurrence position is what `findSub` returns. -/
theorem findSub_eq_of_least (n : Str) : ∀ (h : Str) (p : Nat),
    n <+: h.drop p → (∀ j, j < p → ¬ n <+: h.drop j) → findSub n h = some p := by
  intro h
  induction h with
  | nil =>
    intro p hfirst hleast
    have hp0 : p = 0 := by
      by_contra hne
      exact hleast 0 (by omega) (by simpa using hfirst)
    subst hp0
    simp only [List.drop_nil] at hfirst
    simp only [findSub]
    rw [if_pos (List.isPrefixOf_iff_prefix.mpr hfirst)]
  | cons c rest ih =>
    intro p hfirst hleast
    match p with
    | 0 =>
      simp only [List.drop_zero] at hfirst
      simp only [findSub]
      rw [if_pos (List.isPrefixOf_iff_prefix.mpr hfirst)]
    | p' + 1 =>
      have hnot : ¬ n.isPrefixOf (c :: rest) = true := by
        intro hcon
        exact hleast 0 (by omega) (by simpa using List.isPrefixOf_iff_prefix.mp hcon)
      have hrec := ih p' (by simpa using hfirst)
        (fun j hj => by simpa using hleast (j + 1) (by omega))
      simp only [findSub]
      rw [if_neg hnot, hrec]
      rfl

/-- An infix occurrence gives `findSub` a result (no `-1` fallback). -/
theorem findSub_isSome_of_contains (n h : Str) (hinf : n <:+: h) :
    (findSub n h).isSome := by
  have := (pyIn_iff n h).mpr hinf
  simpa [pyIn] using this

/-- The AND-match test agrees with "every term is an infix". -/
theorem pageMatches_iff (terms : List Str) (low : Str) :
    pageMatches terms low = true ↔ ∀ t ∈ terms, t <:+: low := by
  simp only [pageMatches, List.all_eq_true]
  constructor
  · intro hall t ht
    exact (pyIn_iff t low).mp (hall t ht)
  · intro hall t ht
    exact (pyIn_iff t low).mpr (hall t ht)

/-! ### Sorting instances and lemmas -/

instance : IsTotal SearchResult (fun a b => b.match_count ≤ a.match_count) :=
  ⟨fun a b => le_total b.match_count a.match_count⟩

instance : IsTrans SearchResult (fun a b => b.match_count ≤ a.match_count) :=
  ⟨fun _ _ _ hab hbc => le_trans hbc hab⟩

instance : IsTotal SmartResult (fun a b => b.relevance_score ≤ a.relevance_score) :=
  ⟨fun a b => le_total b.relevance_score a.relevance_score⟩

instance : IsTrans SmartResult (fun a b => b.relevance_score ≤ a.relevance_score) :=
  ⟨fun _ _ _ hab hbc => le_trans hbc hab⟩

theorem sortByMatchCountDesc_sorted (l : List SearchResult) :
    List.Sorted (fun a b => b.match_count ≤ a.match_count) (sortByMatchCountDesc l) :=
  List.sorted_insertionSort _ l

theorem sortByMatchCountDesc_perm (l : List SearchResult) :
    (sortByMatchCountDesc l).Perm l :=
  List.perm_insertionSort _ l

theorem sortByRelevanceDesc_sorted (l : List SmartResult) :
    List.Sorted (fun a b => b.relevance_score ≤ a.relevance_score) (sortByRelevanceDesc l) :=
  List.sorted_insertionSort _ l

theorem sortByRelevanceDesc_perm (l : List SmartResult) :
    (sortByRelevanceDesc l).Perm l :=
  List.perm_insertionSort _ l

/-! ### Parsing lemmas -/

/-- A blank query parses to no terms. -/
theorem parse_search_terms_of_strip_nil (q : Str) (h : pyStrip q = []) :
    parse_search_terms q = [] := by
  simp only [parse_search_terms, h]
  rfl

/-! ### Claim C1 — AND semantics of keyword search -/

/-- The spec-side match predicate of claim C1: the document passes the
file-type filter and every parsed term is a case-insensitive substring of the
page text. -/
def MatchesSpec (terms : List Str) (filt : Option Str) (d : Document) (pg : Page) : Prop :=
  passesTypeFilter filt d = true ∧ ∀ t ∈ terms, t <:+: lowerStr pg.text

instance (terms : List Str) (filt : Option Str) (d : Document) (pg : Page) :
    Decidable (MatchesSpec terms filt d pg) := by
  unfold MatchesSpec
  infer_instance

/-- Summing a mapped filter is summing with zeros at the filtered-out spots. -/
theorem sum_map_filter (l : List α) (p : α → Bool) (g : α → Nat) :
    ((l.filter p).map g).sum = (l.map (fun a => if p a then g a else 0)).sum := by
  induction l with
  | nil => rfl
  | cons a l ih =>
    by_cases hp : p a <;> simp [List.filter_cons, hp, ih]

/-- Claim C1: for every loaded index, query and optional file-type filter,
`search_index` counts as matches exactly the (document, page) pairs where the
document passes the filter and every parsed term is a case-insensitive
substring of the page text (AND semantics); a query that is empty, blank, or
parses to no terms yields an empty result set. -/
theorem search_index_and_semantics (query : Str) (index : List Document)
    (page per_page : Nat) (filt : Option Str) :
    (parse_search_terms query ≠ [] →
      ((search_index query index page per_page filt).total_matches
          = ((index.filter (fun d => passesTypeFilter filt d)).map
              (fun d => d.pages.countP
                (fun pg => decide (∀ t ∈ parse_search_terms query, t <:+: lowerStr pg.text)))).sum
        ∧ (∀ r ∈ keywordMatchList (parse_search_terms query) filt index,
            ∃ d ∈ index, ∃ pg ∈ d.pages,
              MatchesSpec (parse_search_terms query) filt d pg
                ∧ r = mkSearchResult (parse_search_terms query) d pg)
        ∧ (∀ d ∈ index, ∀ pg ∈ d.pages,
            MatchesSpec (parse_search_terms query) filt d pg →
              mkSearchResult (parse_search_terms query) d pg
                ∈ keywordMatchList (parse_search_terms query) filt index)))
    ∧ ((query = [] ∨ pyStrip query = [] ∨ parse_search_terms query = []) →
        (search_index query index page per_page filt).total_matches = 0
          ∧ (search_index query index page per_page filt).results = []) := by
  constructor
  · intro hterms
    have hstrip : pyStrip query ≠ [] :=
      fun hs => hterms (parse_search_terms_of_strip_nil query hs)
    have hquery : ¬ (query = [] ∨ pyStrip query = []) := by
      rintro (hq | hq)
      · exact hstrip (by rw [hq]; rfl)
      · exact hstrip hq
    refine ⟨?_, ?_, ?_⟩
    · simp only [search_index]
      rw [if_neg hquery, if_neg hterms]
      simp only [sortByMatchCountDesc, List.length_insertionSort, keywordMatchList,
        List.length_flatMap]
      rw [sum_map_filter]
      congr 1
      apply List.map_congr_left
      intro d _
      by_cases hpass : passesTypeFilter filt d
      · rw [if_pos hpass]
        simp only [Function.comp, hpass, if_true, List.length_map]
        rw [← List.countP_eq_length_filter]
        apply List.countP_congr
        intro pg _
        rw [pageMatches_iff]
        simp
      · rw [if_neg hpass]
        simp [Function.comp, hpass]
    · intro r hr
      simp only [keywordMatchList, List.mem_flatMap] at hr
      obtain ⟨d, hd, hrd⟩ := hr
      by_cases hpass : passesTypeFilter filt d
      · rw [if_pos hpass] at hrd
        simp only [List.mem_map, List.mem_filter] at hrd
        obtain ⟨pg, ⟨hpg, hmatch⟩, hmk⟩ := hrd
        exact ⟨d, hd, pg, hpg, ⟨hpass, (pageMatches_iff _ _).mp hmatch⟩, hmk.symm⟩
      · rw [if_neg hpass] at hrd
        cases hrd
    · intro d hd pg hpg hm
      obtain ⟨hpass, hall⟩ := hm
      simp only [keywordMatchList, List.mem_flatMap]
      refine ⟨d, hd, ?_⟩
      rw [if_pos hpass]
      simp only [List.mem_map, List.mem_filter]
      exact ⟨pg, ⟨hpg, (pageMatches_iff _ _).mpr hall⟩, rfl⟩
  · intro hempty
    rcases hempty with hq | hq | hq
    · have : query = [] ∨ pyStrip query = [] := Or.inl hq
      simp [search_index, this, emptyResponse]
    · have : query = [] ∨ pyStrip query = [] := Or.inr hq
      simp [search_index, this, emptyResponse]
    · by_cases hqs : query = [] ∨ pyStrip query = []
      · simp [search_index, hqs, emptyResponse]
      · simp only [search_index]
        rw [if_neg hqs, if_pos hq]
        exact ⟨rfl, rfl⟩

/-- A document list exercising both the filter and the AND-match in C1's
witness. -/
def docA : Document :=
  { filename := "a.pdf".data
    path := "files/a.pdf".data
    file_type := some ("pdf".data)
    pages := [ { page_num := 1, text := "The Ford memo, CONFIDENTIAL draft".data, sheet_name := [] }
             , { page_num := 2, text := "nothing here".data, sheet_name := [] } ] }

/-- Second witness document, excluded by the `pdf` file-type filter. -/
def docB : Document :=
  { filename := "b.xlsx".data
    path := "files/b.xlsx".data
    file_type := some ("excel".data)
    pages := [ { page_num := 1, text := "ford confidential".data, sheet_name := "S1".data } ] }

theorem search_index_and_semantics_witness :
    (search_index ("ford confidential".data) [docA, docB] 1 20 (some ("pdf".data))).total_matches
      = (([docA, docB].filter (fun d => passesTypeFilter (some ("pdf".data)) d)).map
          (fun d => d.pages.countP
            (fun pg => decide (∀ t ∈ parse_search_terms ("ford confidential".data),
              t <:+: lowerStr pg.text)))).sum :=
  ((search_index_and_semantics ("ford confidential".data) [docA, docB] 1 20
    (some ("pdf".data))).1 (by decide)).1

/-! ### Claim C2 — pagination -/

/-- Ceiling division: the code's `(t + p - 1) / p` is `⌈t / p⌉`. -/
theorem ceil_div_eq (t p : Nat) (hp : 0 < p) :
    (t + p - 1) / p = ⌈(t : ℚ) / (p : ℚ)⌉₊ := by
  have hpQ : (0 : ℚ) < (p : ℚ) := by exact_mod_cast hp
  apply le_antisymm
  · have h1 : t ≤ ⌈(t : ℚ) / (p : ℚ)⌉₊ * p := by
      have hle := Nat.le_ceil ((t : ℚ) / (p : ℚ))
      rw [div_le_iff₀ hpQ] at hle
      exact_mod_cast hle
    have h2 : t + p - 1 < (⌈(t : ℚ) / (p : ℚ)⌉₊ + 1) * p := by
      have hexp : (⌈(t : ℚ) / (p : ℚ)⌉₊ + 1) * p = ⌈(t : ℚ) / (p : ℚ)⌉₊ * p + p := by ring
      rw [hexp]
      generalize ⌈(t : ℚ) / (p : ℚ)⌉₊ * p = C at h1 ⊢
      omega
    have := (Nat.div_lt_iff_lt_mul hp).mpr h2
    omega
  · apply Nat.ceil_le.mpr
    rw [div_le_iff₀ hpQ]
    have h3 : t ≤ (t + p - 1) / p * p := by
      rw [Nat.mul_comm]
      have hqr := Nat.div_add_mod (t + p - 1) p
      have hrlt := Nat.mod_lt (t + p - 1) hp
      generalize p * ((t + p - 1) / p) = Q at hqr ⊢
      generalize (t + p - 1) % p = R at hqr hrlt
      omega
    exact_mod_cast h3

/-- The full sorted keyword result list (the list `search_index` paginates). -/
def keywordFullResults (query : Str) (filt : Option Str) (index : List Document) :
    List SearchResult :=
  if query = [] ∨ pyStrip query = [] then []
  else if parse_search_terms query = [] then []
  else sortByMatchCountDesc (keywordMatchList (parse_search_terms query) filt index)

/-- The full sorted smart result list (the list `smart_search_index`
paginates). -/
def smartFullResults (plan : QueryPlan) (filt : Option Str) (index : List Document) :
    List SmartResult :=
  if plan.required_terms = [] then []
  else sortByRelevanceDesc (smartMatchList plan filt index)

/-- Claim C2: for every keyword or smart search with `per_page ≥ 1` and page
number `n ≥ 1`, `total_pages = ⌈total_matches / per_page⌉`, the returned
results are exactly the slice `[(n-1)·per_page, n·per_page)` of the full
sorted result list, and `has_more` holds iff `n·per_page < total_matches`. -/
theorem search_pagination (query : Str) (plan : QueryPlan) (index : List Document)
    (page per_page : Nat) (filt : Option Str)
    (hpp : 1 ≤ per_page) (hpage : 1 ≤ page) :
    ((search_index query index page per_page filt).total_matches
        = (keywordFullResults query filt index).length
      ∧ (search_index query index page per_page filt).total_pages
        = ⌈((search_index query index page per_page filt).total_matches : ℚ) / (per_page : ℚ)⌉₊
      ∧ (search_index query index page per_page filt).results
        = ((keywordFullResults query filt index).drop ((page - 1) * per_page)).take per_page
      ∧ ((search_index query index page per_page filt).has_more = true
          ↔ page * per_page
            < (search_index query index page per_page filt).total_matches))
    ∧ ((smart_search_index plan index page per_page filt).total_matches
        = (smartFullResults plan filt index).length
      ∧ (smart_search_index plan index page per_page filt).total_pages
        = ⌈((smart_search_index plan index page per_page filt).total_matches : ℚ) / (per_page : ℚ)⌉₊
      ∧ (smart_search_index plan index page per_page filt).results
        = ((smartFullResults plan filt index).drop ((page - 1) * per_page)).take per_page
      ∧ ((smart_search_index plan index page per_page filt).has_more = true
          ↔ page * per_page
            < (smart_search_index plan index page per_page filt).total_matches)) := by
  have hmul : (page - 1) * per_page + per_page = page * per_page := by
    have hpage' : page - 1 + 1 = page := Nat.succ_pred_eq_of_pos hpage
    calc (page - 1) * per_page + per_page = (page - 1 + 1) * per_page := by rw [Nat.succ_mul]
    _ = page * per_page := by rw [hpage']
  constructor
  · by_cases hq : query = [] ∨ pyStrip query = []
    · simp [search_index, keywordFullResults, hq, emptyResponse, Nat.ceil_zero]
    · by_cases hterms : parse_search_terms query = []
      · simp [search_index, keywordFullResults, hq, hterms, emptyResponse, Nat.ceil_zero]
      · simp only [search_index, keywordFullResults]
        rw [if_neg hq, if_neg hterms, if_neg hq, if_neg hterms]
        refine ⟨rfl, ?_, rfl, ?_⟩
        · exact ceil_div_eq _ _ hpp
        · rw [decide_eq_true_iff, hmul]
  · by_cases hreq : plan.required_terms = []
    · simp [smart_search_index, smartFullResults, hreq, emptySmartResponse, Nat.ceil_zero]
    · simp only [smart_search_index, smartFullResults]
      rw [if_neg hreq, if_neg hreq]
      refine ⟨rfl, ?_, rfl, ?_⟩
      · exact ceil_div_eq _ _ hpp
      · rw [decide_eq_true_iff, hmul]

/-- A non-degenerate query plan used by the smart-search witnesses. -/
def planW : QueryPlan :=
  { required_terms := ["ford".data]
    interpretation := "docs about ford".data
    optional_terms := ["confidential".data]
    person_names := []
    locations := []
    date_hints := []
    confidence := 9 / 10
    schema_version := "v1".data }

/-! ### Claim C4 — keyword scoring and sort order -/

/-- Claim C4: every keyword result's `match_count` is the sum over the parsed
terms of the non-overlapping case-insensitive occurrence counts in its page's
text, and the full result list is sorted descending by `match_count` before
pagination. -/
theorem keyword_scoring_and_sort (query : Str) (index : List Document)
    (filt : Option Str) :
    (∀ r ∈ keywordFullResults query filt index,
        ∃ d ∈ index, ∃ pg ∈ d.pages,
          r = mkSearchResult (parse_search_terms query) d pg
          ∧ r.match_count = ((parse_search_terms query).map
              (fun t => countOcc t (lowerStr pg.text))).sum)
    ∧ List.Sorted (fun a b : SearchResult => b.match_count ≤ a.match_count)
        (keywordFullResults query filt index) := by
  constructor
  · intro r hr
    simp only [keywordFullResults] at hr
    by_cases hq : query = [] ∨ pyStrip query = []
    · rw [if_pos hq] at hr; cases hr
    · rw [if_neg hq] at hr
      by_cases hterms : parse_search_terms query = []
      · rw [if_pos hterms] at hr; cases hr
      · rw [if_neg hterms] at hr
        rw [sortByMatchCountDesc, List.mem_insertionSort] at hr
        simp only [keywordMatchList, List.mem_flatMap] at hr
        obtain ⟨d, hd, hrd⟩ := hr
        by_cases hpass : passesTypeFilter filt d
        · rw [if_pos hpass] at hrd
          simp only [List.mem_map, List.mem_filter] at hrd
          obtain ⟨pg, ⟨hpg, _⟩, hmk⟩ := hrd
          exact ⟨d, hd, pg, hpg, hmk.symm, by rw [← hmk]; rfl⟩
        · rw [if_neg hpass] at hrd
          cases hrd
  · simp only [keywordFullResults]
    by_cases hq : query = [] ∨ pyStrip query = []
    · rw [if_pos hq]; exact List.sorted_nil
    · rw [if_neg hq]
      by_cases hterms : parse_search_terms query = []
      · rw [if_pos hterms]; exact List.sorted_nil
      · rw [if_neg hterms]
        exact sortByMatchCountDesc_sorted _

/-- A default page used to spell out concrete witnesses. -/
def pg0 : Page := { page_num := 0, text := [], sheet_name := [] }

theorem keyword_scoring_and_sort_witness :
    List.Sorted (fun a b : SearchResult => b.match_count ≤ a.match_count)
      (keywordFullResults ("ford".data) Option.none [docA, docB])
    ∧ (∃ d ∈ [docA, docB], ∃ pg ∈ d.pages,
        mkSearchResult (parse_search_terms ("ford".data)) docA (docA.pages.headD pg0)
          = mkSearchResult (parse_search_terms ("ford".data)) d pg
        ∧ (mkSearchResult (parse_search_terms ("ford".data)) docA (docA.pages.headD pg0)).match_count
          = ((parse_search_terms ("ford".data)).map
              (fun t => countOcc t (lowerStr pg.text))).sum) :=
  ⟨(keyword_scoring_and_sort ("ford".data) [docA, docB] Option.none).2,
   (keyword_scoring_and_sort ("ford".data) [docA, docB] Option.none).1 _ (by decide)⟩

/-! ### Claim C5 — smart-search scoring -/

/-- Claim C5: the smart-search relevance score of a page is
`min(100, Σ_required min(10·occ, 30) + 5·#optional + 15·#persons +
10·#locations)`, every returned score is at most 100, and the full result
list is sorted descending by score. -/
theorem smart_scoring_and_sort (plan : QueryPlan) (index : List Document)
    (filt : Option Str) :
    (∀ d ∈ index, ∀ pg ∈ d.pages,
        (mkSmartResult plan d pg).relevance_score
          = min 100
              ((plan.required_terms.map
                  (fun t => min (10 * countOcc t (lowerStr pg.text)) 30)).sum
                + 5 * plan.optional_terms.countP (fun t => decide (t <:+: lowerStr pg.text))
                + 15 * plan.person_names.countP (fun t => decide (t <:+: lowerStr pg.text))
                + 10 * plan.locations.countP (fun t => decide (t <:+: lowerStr pg.text))))
    ∧ (∀ r ∈ smartFullResults plan filt index, r.relevance_score ≤ 100)
    ∧ List.Sorted (fun a b : SmartResult => b.relevance_score ≤ a.relevance_score)
        (smartFullResults plan filt index) := by
  have hpyin : ∀ n low : Str, pyIn n low = decide (n <:+: low) := by
    intro n low
    by_cases hc : n <:+: low
    · rw [(pyIn_iff n low).mpr hc]
      exact (decide_eq_true hc).symm
    · have h1 : pyIn n low = false := by
        rw [← Bool.not_eq_true]
        exact fun hp => hc ((pyIn_iff n low).mp hp)
      rw [h1]
      exact (decide_eq_false hc).symm
  have hcnt : ∀ (l : List Str) (low : Str),
      (l.filter (fun t => pyIn t low)).length
        = l.countP (fun t => decide (t <:+: low)) := by
    intro l low
    rw [List.countP_eq_length_filter]
    congr 1
    apply List.filter_congr
    intro t _
    exact hpyin t low
  have hterm : ∀ low : Str,
      (plan.required_terms.map (fun t => min (countOcc t low * 10) 30)).sum
        = (plan.required_terms.map (fun t => min (10 * countOcc t low) 30)).sum := by
    intro low
    congr 1
    apply List.map_congr_left
    intro t _
    rw [Nat.mul_comm]
  have hscore : ∀ low : Str, smartScore plan low
      = min 100
          ((plan.required_terms.map (fun t => min (10 * countOcc t low) 30)).sum
            + 5 * plan.optional_terms.countP (fun t => decide (t <:+: low))
            + 15 * plan.person_names.countP (fun t => decide (t <:+: low))
            + 10 * plan.locations.countP (fun t => decide (t <:+: low))) := by
    intro low
    rw [smartScore, Nat.min_comm, hterm low, hcnt plan.optional_terms low,
      hcnt plan.person_names low, hcnt plan.locations low]
  refine ⟨?_, ?_, ?_⟩
  · intro d _ pg _
    exact hscore (lowerStr pg.text)
  · intro r hr
    simp only [smartFullResults] at hr
    by_cases hreq : plan.required_terms = []
    · rw [if_pos hreq] at hr; cases hr
    · rw [if_neg hreq] at hr
      rw [sortByRelevanceDesc, List.mem_insertionSort] at hr
      simp only [smartMatchList, List.mem_flatMap] at hr
      obtain ⟨d, _, hrd⟩ := hr
      by_cases hpass : passesTypeFilter filt d
      · rw [if_pos hpass] at hrd
        simp only [List.mem_map, List.mem_filter] at hrd
        obtain ⟨pg, _, hmk⟩ := hrd
        rw [← hmk]
        exact Nat.min_le_right _ _
      · rw [if_neg hpass] at hrd
        cases hrd
  · simp only [smartFullResults]
    by_cases hreq : plan.required_terms = []
    · rw [if_pos hreq]; exact List.sorted_nil
    · rw [if_neg hreq]; exact sortByRelevanceDesc_sorted _

theorem smart_scoring_and_sort_witness :
    (mkSmartResult planW docA (docA.pages.headD pg0)).relevance_score
      = min 100
          ((planW.required_terms.map
              (fun t => min (10 * countOcc t (lowerStr (docA.pages.headD pg0).text)) 30)).sum
            + 5 * planW.optional_terms.countP
                (fun t => decide (t <:+: lowerStr (docA.pages.headD pg0).text))
            + 15 * planW.person_names.countP
                (fun t => decide (t <:+: lowerStr (docA.pages.headD pg0).text))
            + 10 * planW.locations.countP
                (fun t => decide (t <:+: lowerStr (docA.pages.headD pg0).text))) :=
  (smart_scoring_and_sort planW [docA, docB] Option.none).1 docA (by decide)
    (docA.pages.headD pg0) (by decide)

/-! ### Claims C8 and C10 — context extraction -/

/-- An occurrence lying inside the window `[a, b)` survives slicing to that
window. -/
theorem infix_window (n l : Str) (p a b : Nat)
    (hpre : n <+: l.drop p) (ha : a ≤ p) (hb : p + n.length ≤ b) :
    n <:+: (l.drop a).take (b - a) := by
  have hdropped : ((l.drop a).take (b - a)).drop (p - a) = (l.drop p).take (b - p) := by
    rw [List.drop_take, List.drop_drop]
    have h1 : a + (p - a) = p := by omega
    have h2 : b - a - (p - a) = b - p := by omega
    rw [h1, h2]
  obtain ⟨t, ht⟩ := hpre
  have hlen : n.length ≤ b - p := by omega
  have htake : (l.drop p).take (b - p) = n ++ t.take (b - p - n.length) := by
    rw [← ht, List.take_append_eq_append_take, List.take_of_length_le hlen]
  refine ⟨((l.drop a).take (b - a)).take (p - a), t.take (b - p - n.length), ?_⟩
  have hsplit := List.take_append_drop (p - a) ((l.drop a).take (b - a))
  rw [hdropped, htake] at hsplit
  rw [List.append_assoc]
  exact hsplit

/-- The main branch of `extract_context` keeps an occurrence of the term:
the lowercased snippet still contains the (lowercase) term. -/
theorem lower_context_contains (text term : Str) (hinf : term <:+: lowerStr text) :
    term <:+: lowerStr (extract_context text term 100) := by
  have hsome := findSub_isSome_of_contains term (lowerStr text) hinf
  obtain ⟨pos, hfind⟩ : ∃ pos, findSub term (lowerStr text) = some pos := by
    cases hf : findSub term (lowerStr text) with
    | some p => exact ⟨p, rfl⟩
    | none => rw [hf] at hsome; cases hsome
  have hbound := findSub_bound term (lowerStr text) pos hfind
  have hpre := findSub_prefix term (lowerStr text) pos hfind
  have hlow : (lowerStr text).length = text.length := List.length_map _ _
  have hcore : term <:+:
      lowerStr ((text.drop (pos - 100)).take
        (min text.length (pos + term.length + 100) - (pos - 100))) := by
    simp only [lowerStr, List.map_take, List.map_drop]
    exact infix_window term (text.map Char.toLower) pos (pos - 100)
      (min text.length (pos + term.length + 100))
      hpre (by omega) (by omega)
  have hstep : ∀ s : Str,
      (text.drop (pos - 100)).take
          (min text.length (pos + term.length + 100) - (pos - 100)) <:+: s →
        term <:+: lowerStr s := by
    intro s hs
    exact hcore.trans (hs.map Char.toLower)
  simp only [extract_context, hfind]
  by_cases h1 : 0 < pos - 100
  · rw [if_pos h1]
    by_cases h2 : min text.length (pos + term.length + 100) < text.length
    · rw [if_pos h2]
      exact hstep _ ⟨"...".data, "...".data, by simp⟩
    · rw [if_neg h2]
      exact hstep _ ⟨"...".data, [], by simp⟩
  · rw [if_neg h1]
    by_cases h2 : min text.length (pos + term.length + 100) < text.length
    · rw [if_pos h2]
      exact hstep _ ⟨[], "...".data, by simp⟩
    · rw [if_neg h2]
      exact hstep _ ⟨[], [], by simp⟩

/-- The head of a non-empty list is one of its members. -/
theorem headD_mem {l : List Str} (h : l ≠ []) : l.headD [] ∈ l := by
  cases l with
  | nil => exact absurd rfl h
  | cons a l => exact List.mem_cons_self a l

/-- Claim C8: when the term occurs (case-insensitively) in the page text at
first position `pos`, the context snippet is exactly the slice of the
original text from `max(0, pos - 100)` to `min(len, pos + len(term) + 100)`,
with a `...` prefix iff truncated at the start and a `...` suffix iff
truncated at the end. -/
theorem extract_context_window (text term : Str) (pos : Nat)
    (hocc : term <+: (lowerStr text).drop pos)
    (hleast : ∀ j, j < pos → ¬ term <+: (lowerStr text).drop j) :
    extract_context text term 100
      = (if 100 < pos then "...".data else [])
        ++ (text.drop (pos - 100)).take
            (min text.length (pos + term.length + 100) - (pos - 100))
        ++ (if min text.length (pos + term.length + 100) < text.length
            then "...".data else []) := by
  have hfind : findSub term (lowerStr text) = some pos :=
    findSub_eq_of_least term (lowerStr text) pos hocc hleast
  simp only [extract_context, hfind]
  by_cases h1 : 0 < pos - 100
  · rw [if_pos h1, if_pos (by omega : 100 < pos)]
    by_cases h2 : min text.length (pos + term.length + 100) < text.length
    · rw [if_pos h2, if_pos h2]
      try simp [List.append_assoc]
    · rw [if_neg h2, if_neg h2]
      try simp [List.append_assoc]
  · rw [if_neg h1, if_neg (by omega : ¬ 100 < pos)]
    by_cases h2 : min text.length (pos + term.length + 100) < text.length
    · rw [if_pos h2, if_pos h2]
      try simp [List.append_assoc]
    · rw [if_neg h2, if_neg h2]
      try simp [List.append_assoc]

theorem extract_context_window_witness :
    extract_context ("abcdef".data) ("cd".data) 100
      = (if 100 < 2 then "...".data else [])
        ++ (("abcdef".data).drop (2 - 100)).take
            (min ("abcdef".data).length (2 + ("cd".data).length + 100) - (2 - 100))
        ++ (if min ("abcdef".data).length (2 + ("cd".data).length + 100)
              < ("abcdef".data).length
            then "...".data else []) :=
  extract_context_window ("abcdef".data) ("cd".data) 2 (by decide) (by decide)

/-- Claim C10: whenever the first search term occurs (case-insensitively) in a
page, `extract_context`'s `pos == -1` fallback is unreachable, and every
context snippet returned by either search contains an occurrence of the first
term. -/
theorem context_never_fallback :
    (∀ text term : Str, term <:+: lowerStr text →
        (findSub term (lowerStr text)).isSome = true
          ∧ term <:+: lowerStr (extract_context text term 100))
    ∧ (∀ (query : Str) (index : List Document) (page per_page : Nat)
        (filt : Option Str),
        ∀ r ∈ (search_index query index page per_page filt).results,
          (parse_search_terms query).headD [] <:+: lowerStr r.context)
    ∧ (∀ (plan : QueryPlan) (index : List Document) (page per_page : Nat)
        (filt : Option Str),
        ∀ r ∈ (smart_search_index plan index page per_page filt).results,
          plan.required_terms.headD [] <:+: lowerStr r.context) := by
  refine ⟨?_, ?_, ?_⟩
  · intro text term hinf
    exact ⟨findSub_isSome_of_contains term (lowerStr text) hinf,
      lower_context_contains text term hinf⟩
  · intro query index page per_page filt r hr
    by_cases hq : query = [] ∨ pyStrip query = []
    · simp [search_index, hq, emptyResponse] at hr
    · by_cases hterms : parse_search_terms query = []
      · simp only [search_index] at hr
        rw [if_neg hq, if_pos hterms] at hr
        cases hr
      · simp only [search_index] at hr
        rw [if_neg hq, if_neg hterms] at hr
        have hr1 : r ∈ sortByMatchCountDesc
            (keywordMatchList (parse_search_terms query) filt index) :=
          ((List.take_sublist _ _).trans (List.drop_sublist _ _)).mem hr
        rw [sortByMatchCountDesc, List.mem_insertionSort] at hr1
        simp only [keywordMatchList, List.mem_flatMap] at hr1
        obtain ⟨d, _, hrd⟩ := hr1
        by_cases hpass : passesTypeFilter filt d
        · rw [if_pos hpass] at hrd
          simp only [List.mem_map, List.mem_filter] at hrd
          obtain ⟨pg, ⟨_, hmatch⟩, hmk⟩ := hrd
          have hinf : (parse_search_terms query).headD [] <:+: lowerStr pg.text :=
            (pageMatches_iff _ _).mp hmatch _ (headD_mem hterms)
          rw [← hmk]
          exact lower_context_contains pg.text _ hinf
        · rw [if_neg hpass] at hrd
          cases hrd
  · intro plan index page per_page filt r hr
    by_cases hreq : plan.required_terms = []
    · simp [smart_search_index, hreq, emptySmartResponse] at hr
    · simp only [smart_search_index] at hr
      rw [if_neg hreq] at hr
      have hr1 : r ∈ sortByRelevanceDesc (smartMatchList plan filt index) :=
        ((List.take_sublist _ _).trans (List.drop_sublist _ _)).mem hr
      rw [sortByRelevanceDesc, List.mem_insertionSort] at hr1
      simp only [smartMatchList, List.mem_flatMap] at hr1
      obtain ⟨d, _, hrd⟩ := hr1
      by_cases hpass : passesTypeFilter filt d
      · rw [if_pos hpass] at hrd
        simp only [List.mem_map, List.mem_filter] at hrd
        obtain ⟨pg, ⟨_, hmatch⟩, hmk⟩ := hrd
        have hinf : plan.required_terms.headD [] <:+: lowerStr pg.text :=
          (pageMatches_iff _ _).mp hmatch _ (headD_mem hreq)
        rw [← hmk]
        exact lower_context_contains pg.text _ hinf
      · rw [if_neg hpass] at hrd
        cases hrd

theorem context_never_fallback_witness :
    ((findSub ("ell".data) (lowerStr ("Hello".data))).isSome = true
      ∧ "ell".data <:+: lowerStr (extract_context ("Hello".data) ("ell".data) 100))
    ∧ (parse_search_terms ("ford".data)).headD []
        <:+: lowerStr (mkSearchResult (parse_search_terms ("ford".data)) docA
          (docA.pages.headD pg0)).context :=
  ⟨context_never_fallback.1 ("Hello".data) ("ell".data) (by decide),
   context_never_fallback.2.1 ("ford".data) [docA, docB] 1 20 Option.none _ (by decide)⟩

theorem search_pagination_witness :
    (search_index ("ford".data) [docA, docB] 2 1 Option.none).results
        = ((keywordFullResults ("ford".data) Option.none [docA, docB]).drop ((2 - 1) * 1)).take 1
      ∧ (smart_search_index planW [docA, docB] 1 20 Option.none).total_pages
        = ⌈((smart_search_index planW [docA, docB] 1 20 Option.none).total_matches : ℚ) / (20 : ℚ)⌉₊ :=
  ⟨((search_pagination ("ford".data) planW [docA, docB] 2 1 Option.none
      (by decide) (by decide)).1).2.2.1,
   ((search_pagination ("ford".data) planW [docA, docB] 1 20 Option.none
      (by decide) (by decide)).2).2.1⟩

/-! ### Claim C9 — index loader -/

/-- The length of a `filterMap` counts the elements mapped to `some`. -/
theorem length_filterMap_countP (l : List α) (f : α → Option β) :
    (l.filterMap f).length = l.countP (fun a => (f a).isSome) := by
  induction l with
  | nil => rfl
  | cons a l ih =>
    cases hf : f a <;> simp [List.filterMap_cons, hf, List.countP_cons, ih]

/-- Claim C9: `load_project_index` loads exactly the successfully parsed
`.json` files (malformed files are skipped), defaults a missing `file_type`
to `pdf`, and reports `total_docs` / `total_pages` as the number of loaded
documents and the sum of their page counts. -/
theorem load_project_index_spec (files : List IndexFile) :
    (∀ d : Document, d ∈ (load_project_index files).1 ↔
        ∃ f ∈ files, isJsonName f.1 = true
          ∧ ∃ d0 : Document, f.2 = some d0
            ∧ d = { d0 with file_type := some (docFileType d0) })
    ∧ (∀ d ∈ (load_project_index files).1, d.file_type.isSome = true)
    ∧ (∀ d0 : Document, d0.file_type = Option.none →
        ({ d0 with file_type := some (docFileType d0) } : Document).file_type
          = some ("pdf".data))
    ∧ (load_project_index files).2.total_docs = (load_project_index files).1.length
    ∧ (load_project_index files).2.total_docs
        = files.countP (fun f => isJsonName f.1 && f.2.isSome)
    ∧ (load_project_index files).2.total_pages
        = ((load_project_index files).1.map (fun d => d.pages.length)).sum := by
  refine ⟨?_, ?_, ?_, rfl, ?_, rfl⟩
  · intro d
    simp only [load_project_index, List.mem_filterMap, List.mem_filter,
      Option.map_eq_some']
    constructor
    · rintro ⟨f, ⟨hf, hjson⟩, d0, hd0, hmk⟩
      exact ⟨f, hf, hjson, d0, hd0, hmk.symm⟩
    · rintro ⟨f, hf, hjson, d0, hd0, hmk⟩
      exact ⟨f, ⟨hf, hjson⟩, d0, hd0, hmk.symm⟩
  · intro d hd
    simp only [load_project_index, List.mem_filterMap, List.mem_filter,
      Option.map_eq_some'] at hd
    obtain ⟨f, _, d0, _, hmk⟩ := hd
    rw [← hmk]
    rfl
  · intro d0 h0
    simp [docFileType, h0]
  · simp only [load_project_index]
    rw [length_filterMap_countP, List.countP_filter]
    apply List.countP_congr
    intro f _
    cases hf : f.2 <;> by_cases hj : isJsonName f.1 <;> simp [hf, hj]

/-- A raw document with no `file_type` key, as in a legacy PDF-only index
file. -/
def docLegacy : Document :=
  { filename := "old.pdf".data
    path := "files/old.pdf".data
    file_type := Option.none
    pages := [ { page_num := 1, text := "legacy page".data, sheet_name := [] } ] }

/-- Witness directory listing: a legacy `.json` file, a non-JSON file, a
malformed `.json` file, and a well-formed `.json` file. -/
def filesW : List IndexFile :=
  [ ("old.json".data, some docLegacy)
  , ("notes.txt".data, some docA)
  , ("broken.json".data, Option.none)
  , ("b.json".data, some docB) ]

theorem load_project_index_spec_witness :
    ({ docLegacy with file_type := some (docFileType docLegacy) } : Document)
        ∈ (load_project_index filesW).1
    ∧ ({ docLegacy with file_type := some (docFileType docLegacy) } : Document).file_type.isSome
        = true :=
  ⟨((load_project_index_spec filesW).1 _).mpr
      ⟨("old.json".data, some docLegacy), by decide, by decide, docLegacy, rfl, rfl⟩,
   (load_project_index_spec filesW).2.1 _
      (((load_project_index_spec filesW).1 _).mpr
        ⟨("old.json".data, some docLegacy), by decide, by decide, docLegacy, rfl, rfl⟩)⟩

/-! ### Claims C3 and C6 — query-plan validation -/

/-- Splitting a successful `Except` bind. -/
theorem exbind_ok {α β : Type} {e : Except PyErr α} {f : α → Except PyErr β} {b : β}
    (h : (e >>= f) = Except.ok b) : ∃ a, e = Except.ok a ∧ f a = Except.ok b := by
  cases e with
  | error err => simp [Bind.bind, Except.bind] at h
  | ok a => exact ⟨a, rfl, by simpa [Bind.bind, Except.bind] using h⟩

/-- Claim C3 as stated: `validate_query_plan` either returns a plan with a
non-empty `required_terms` or raises `LLMValidationError` (and nothing else). -/
def claimC3holds (r : Except PyErr QueryPlan) : Prop :=
  match r with
  | .ok p => p.required_terms ≠ []
  | .error e => e = PyErr.llmValidationError

/-- A dictionary with perfectly good required terms but a `confidence` value
(`[]`) that makes `float()` raise `TypeError`. -/
def c3dict : List (Str × PyVal) :=
  [("required_terms".data, PyVal.str ("ok".data)), ("confidence".data, PyVal.list [])]

/-- Counterexample to claim C3: on `c3dict`, `validate_query_plan` raises
`TypeError` (from `float([])`), which is neither a returned plan nor an
`LLMValidationError`. -/
theorem validate_c3_counterexample : ¬ claimC3holds (validate_query_plan c3dict) := by
  have h : validate_query_plan c3dict = Except.error PyErr.typeError := by rfl
  rw [h]
  simp [claimC3holds]

/-- Claim C3 (amended): every plan `validate_query_plan` returns has non-empty
`required_terms`; when term extraction succeeds but produces no required
terms, person names or locations, the raised exception is
`LLMValidationError` (malformed fields can additionally raise
`TypeError`/`ValueError`). -/
theorem validate_required_nonempty (d : List (Str × PyVal)) :
    (∀ p : QueryPlan, validate_query_plan d = Except.ok p → p.required_terms ≠ [])
    ∧ (sanitizedTerms (pyGet d ("required_terms".data) (.list [])) = Except.ok []
       → (∃ o, sanitizedTerms (pyGet d ("optional_terms".data) (.list [])) = Except.ok o)
       → sanitizedTerms (pyGet d ("person_names".data) (.list [])) = Except.ok []
       → sanitizedTerms (pyGet d ("locations".data) (.list [])) = Except.ok []
       → validate_query_plan d = Except.error PyErr.llmValidationError) := by
  constructor
  · intro p hp
    unfold validate_query_plan at hp
    obtain ⟨req0, h1, hp⟩ := exbind_ok hp
    obtain ⟨opt0, h2, hp⟩ := exbind_ok hp
    obtain ⟨pers, h3, hp⟩ := exbind_ok hp
    obtain ⟨locs, h4, hp⟩ := exbind_ok hp
    set required := (if req0 = [] then
        if pers.take 3 ≠ [] then pers.take 3
        else if locs.take 3 ≠ [] then locs.take 3
        else [] else req0) with hreqdef
    by_cases hreq : required = []
    · rw [if_pos hreq] at hp
      cases hp
    · rw [if_neg hreq] at hp
      obtain ⟨dh, h5, hp⟩ := exbind_ok hp
      obtain ⟨conf0, h6, hp⟩ := exbind_ok hp
      simp only [pure, Except.pure, Except.ok.injEq] at hp
      rw [← hp]
      exact hreq
  · intro h1 h2 h3 h4
    obtain ⟨o, h2⟩ := h2
    unfold validate_query_plan
    rw [h1, h2, h3, h4]
    simp [Bind.bind, Except.bind]

/-- The plan produced for `required_terms = 'ok'`. -/
def planC3W : QueryPlan :=
  { required_terms := ["ok".data]
    interpretation := []
    optional_terms := []
    person_names := []
    locations := []
    date_hints := []
    confidence := max 0 (min 1 (4 / 5))
    schema_version := "v1".data }

theorem validate_required_nonempty_witness :
    planC3W.required_terms ≠ []
    ∧ validate_query_plan [] = Except.error PyErr.llmValidationError :=
  ⟨(validate_required_nonempty
      [("required_terms".data, PyVal.str ("ok".data))]).1 planC3W (by rfl),
   (validate_required_nonempty []).2 (by rfl) ⟨[], by rfl⟩ (by rfl) (by rfl)⟩

/-- Lowercasing keeps a character inside the sanitizer's kept class. -/
theorem keptChar_toLower (c : Char) (h : keptChar c = true) :
    keptChar (Char.toLower c) = true := by
  unfold Char.toLower
  by_cases hc : c.toNat ≥ 65 ∧ c.toNat ≤ 90
  · rw [if_pos hc]
    obtain ⟨h65, h90⟩ := hc
    set n := c.toNat with hn
    interval_cases n <;> decide
  · rw [if_neg hc]
    exact h

/-- Stripping only removes characters. -/
theorem mem_pyStrip {c : Char} {s : Str} (h : c ∈ pyStrip s) : c ∈ s := by
  have hdw : ∀ (l : List Char), c ∈ l.dropWhile Char.isWhitespace → c ∈ l := by
    intro l
    induction l with
    | nil => intro h'; exact h'
    | cons a l ih =>
      intro h'
      simp only [List.dropWhile] at h'
      cases ha : Char.isWhitespace a
      · simp only [ha] at h'
        exact h'
      · simp only [ha] at h'
        exact List.mem_cons_of_mem a (ih h')
  simp only [pyStrip, List.mem_reverse] at h
  have h' := hdw _ h
  rw [List.mem_reverse] at h'
  exact hdw _ h'

/-- Every character of a sanitized term is alphanumeric, whitespace or a
hyphen. -/
theorem sanitize_term_chars (s : Str) : ∀ c ∈ sanitize_term s, keptChar c = true := by
  intro c hc
  simp only [sanitize_term, lowerStr, List.mem_map] at hc
  obtain ⟨c0, hc0, hlow⟩ := hc
  have hmem := mem_pyStrip hc0
  rw [List.mem_filter] at hmem
  rw [← hlow]
  exact keptChar_toLower c0 hmem.2

/-- `sanitizeTermVal`'s successful results are sanitized. -/
theorem sanitizeTermVal_chars (v : PyVal) (s : Str)
    (h : sanitizeTermVal v = Except.ok s) : ∀ c ∈ s, keptChar c = true := by
  unfold sanitizeTermVal at h
  by_cases ht : pyTruthy v
  · rw [if_pos ht] at h
    cases v with
    | str s0 =>
      cases h
      exact sanitize_term_chars s0
    | none => cases h
    | bool b => cases h
    | int n => cases h
    | float q => cases h
    | list l => cases h
    | dict l => cases h
  · rw [if_neg ht] at h
    cases h
    intro c hc
    cases hc

/-- `sanitizeAll`'s successful results are sanitized. -/
theorem sanitizeAll_chars (vs : List PyVal) (ss : List Str)
    (h : sanitizeAll vs = Except.ok ss) : ∀ s ∈ ss, ∀ c ∈ s, keptChar c = true := by
  induction vs generalizing ss with
  | nil =>
    cases h
    intro s hs
    cases hs
  | cons v vs ih =>
    unfold sanitizeAll at h
    obtain ⟨s0, h1, h⟩ := exbind_ok h
    obtain ⟨rest, h2, h⟩ := exbind_ok h
    simp only [pure, Except.pure, Except.ok.injEq] at h
    intro s hs
    rw [← h] at hs
    cases hs with
    | head => exact sanitizeTermVal_chars v s0 h1
    | tail _ htail => exact ih rest h2 s htail

/-- `sanitizedTerms`' successful results are sanitized. -/
theorem sanitizedTerms_chars (v : PyVal) (l : List Str)
    (h : sanitizedTerms v = Except.ok l) : ∀ t ∈ l, ∀ c ∈ t, keptChar c = true := by
  unfold sanitizedTerms at h
  obtain ⟨elems, h1, h⟩ := exbind_ok h
  obtain ⟨ss, h2, h⟩ := exbind_ok h
  simp only [pure, Except.pure, Except.ok.injEq] at h
  intro t ht
  rw [← h] at ht
  exact sanitizeAll_chars _ _ h2 t (List.mem_filter.mp ht).1

/-- The validated term lists of claim C6's counterexample: one hyphenated term
and 21 plain ones (22 required terms in total). -/
def c6terms : List Str :=
  "a-b".data :: (List.range 21).map (fun i => 't' :: (toString i).data)

def c6dict : List (Str × PyVal) :=
  [("required_terms".data, PyVal.list (c6terms.map PyVal.str))]

/-- The plan `validate_query_plan` produces for `c6dict`. -/
def c6plan : QueryPlan :=
  { required_terms := c6terms
    interpretation := []
    optional_terms := []
    person_names := []
    locations := []
    date_hints := []
    confidence := max 0 (min 1 (4 / 5))
    schema_version := "v1".data }

/-- Claim C6 as stated: all terms alphanumeric-only, the listed caps (total
at most 20), confidence clamped. -/
def claimC6holds (p : QueryPlan) : Prop :=
  (∀ t ∈ p.required_terms ++ p.optional_terms ++ p.person_names ++ p.locations,
      ∀ c ∈ t, c.isAlphanum = true)
  ∧ p.optional_terms.length ≤ 15
  ∧ p.person_names.length ≤ 3
  ∧ p.locations.length ≤ 3
  ∧ p.required_terms.length + p.optional_terms.length + p.person_names.length
      + p.locations.length ≤ 20
  ∧ 0 ≤ p.confidence ∧ p.confidence ≤ 1

/-- Counterexample to claim C6: `validate_query_plan` returns a plan whose
required terms keep a hyphen (sanitization also keeps whitespace and hyphens)
and whose total term count is 22 (the 20-term cap only trims optional
terms). -/
theorem validate_c6_counterexample :
    validate_query_plan c6dict = Except.ok c6plan
    ∧ "a-b".data ∈ c6plan.required_terms
    ∧ ¬ (∀ c ∈ ("a-b".data : Str), c.isAlphanum = true)
    ∧ 20 < c6plan.required_terms.length + c6plan.optional_terms.length
        + c6plan.person_names.length + c6plan.locations.length
    ∧ ¬ claimC6holds c6plan := by
  refine ⟨by rfl, by decide, by decide, by decide, ?_⟩
  intro h
  exact absurd h.2.2.2.2.1 (by decide)

/-- Claim C6 (amended): every term of a returned plan consists of
alphanumeric characters, whitespace and hyphens only; `optional_terms` is
capped at 15, `person_names` and `locations` at 3; the 20-term total cap
holds whenever the non-optional terms already fit in it (only optional terms
are trimmed, so required terms alone can exceed 20); confidence is clamped to
`[0, 1]`. -/
theorem validate_query_plan_sanitized (d : List (Str × PyVal)) (p : QueryPlan)
    (hp : validate_query_plan d = Except.ok p) :
    (∀ t ∈ p.required_terms ++ p.optional_terms ++ p.person_names ++ p.locations,
        ∀ c ∈ t, c.isAlphanum = true ∨ c.isWhitespace = true ∨ c = '-')
    ∧ p.optional_terms.length ≤ 15
    ∧ p.person_names.length ≤ 3
    ∧ p.locations.length ≤ 3
    ∧ (p.required_terms.length + p.person_names.length + p.locations.length ≤ 20 →
        p.required_terms.length + p.optional_terms.length + p.person_names.length
          + p.locations.length ≤ 20)
    ∧ 0 ≤ p.confidence ∧ p.confidence ≤ 1 := by
  have hkept : ∀ c : Char, keptChar c = true →
      c.isAlphanum = true ∨ c.isWhitespace = true ∨ c = '-' := by
    intro c hc
    simp only [keptChar, Bool.or_eq_true, beq_iff_eq] at hc
    rcases hc with (h | h) | h
    · exact Or.inl h
    · exact Or.inr (Or.inl h)
    · exact Or.inr (Or.inr h)
  have htake : ∀ (l : List Str) (n : Nat) (t : Str), t ∈ l.take n → t ∈ l :=
    fun l n t ht => (List.take_sublist n l).mem ht
  unfold validate_query_plan at hp
  obtain ⟨req0, h1, hp⟩ := exbind_ok hp
  obtain ⟨opt0, h2, hp⟩ := exbind_ok hp
  obtain ⟨pers, h3, hp⟩ := exbind_ok hp
  obtain ⟨locs, h4, hp⟩ := exbind_ok hp
  have hreq0c := sanitizedTerms_chars _ _ h1
  have hoptc := sanitizedTerms_chars _ _ h2
  have hpersc := sanitizedTerms_chars _ _ h3
  have hlocsc := sanitizedTerms_chars _ _ h4
  by_cases hreq : (if req0 = [] then
      if pers.take 3 ≠ [] then pers.take 3
      else if locs.take 3 ≠ [] then locs.take 3
      else [] else req0) = []
  · rw [if_pos hreq] at hp
    cases hp
  · rw [if_neg hreq] at hp
    obtain ⟨dh, h5, hp⟩ := exbind_ok hp
    obtain ⟨conf0, h6, hp⟩ := exbind_ok hp
    simp only [pure, Except.pure, Except.ok.injEq] at hp
    subst hp
    dsimp only
    set required := (if req0 = [] then
        if pers.take 3 ≠ [] then pers.take 3
        else if locs.take 3 ≠ [] then locs.take 3
        else [] else req0) with hreqdef
    have hreqc : ∀ t ∈ required, ∀ c ∈ t, keptChar c = true := by
      rw [hreqdef]
      split_ifs with h7 h8 h9
      · exact fun t ht => hpersc t (htake _ _ _ ht)
      · exact fun t ht => hlocsc t (htake _ _ _ ht)
      · intro t ht; cases ht
      · exact hreq0c
    refine ⟨?_, ?_, ?_, ?_, ?_, ?_, ?_⟩
    · intro t ht c hc
      apply hkept
      rcases List.mem_append.mp ht with h | hlo
      · rcases List.mem_append.mp h with h | hpe
        · rcases List.mem_append.mp h with hre | hop
          · exact hreqc t hre c hc
          · have hmem : t ∈ opt0 := by
              revert hop
              split_ifs with hcap
              · exact fun h => htake _ _ _ (htake _ _ _ h)
              · exact fun h => htake _ _ _ h
            exact hoptc t hmem c hc
        · exact hpersc t (htake _ _ _ hpe) c hc
      · exact hlocsc t (htake _ _ _ hlo) c hc
    · split_ifs with hcap
      · have hA := (List.take_sublist (20 - (required.length + (pers.take 3).length
          + (locs.take 3).length)) (opt0.take 15)).length_le
        have hB := List.length_take_le 15 opt0
        omega
      · exact List.length_take_le 15 opt0
    · exact List.length_take_le 3 pers
    · exact List.length_take_le 3 locs
    · intro hrest
      split_ifs with hcap
      · have hA := List.length_take_le (20 - (required.length + (pers.take 3).length
          + (locs.take 3).length)) (opt0.take 15)
        omega
      · omega
    · exact le_max_left 0 _
    · exact max_le (by norm_num) (min_le_left 1 conf0)

/-- Witness dictionary and plan for the amended C6. -/
def c6wDict : List (Str × PyVal) :=
  [ ("required_terms".data, PyVal.list [PyVal.str ("John-Smith  ok!".data)])
  , ("optional_terms".data, PyVal.list [PyVal.str ("a1".data)]) ]

def c6wPlan : QueryPlan :=
  { required_terms := ["john-smith  ok".data]
    interpretation := []
    optional_terms := ["a1".data]
    person_names := []
    locations := []
    date_hints := []
    confidence := max 0 (min 1 (4 / 5))
    schema_version := "v1".data }

theorem validate_query_plan_sanitized_witness :
    (∀ t ∈ c6wPlan.required_terms ++ c6wPlan.optional_terms ++ c6wPlan.person_names
        ++ c6wPlan.locations,
        ∀ c ∈ t, c.isAlphanum = true ∨ c.isWhitespace = true ∨ c = '-')
    ∧ c6wPlan.optional_terms.length ≤ 15
    ∧ c6wPlan.person_names.length ≤ 3
    ∧ c6wPlan.locations.length ≤ 3
    ∧ (c6wPlan.required_terms.length + c6wPlan.person_names.length
          + c6wPlan.locations.length ≤ 20 →
        c6wPlan.required_terms.length + c6wPlan.optional_terms.length
          + c6wPlan.person_names.length + c6wPlan.locations.length ≤ 20)
    ∧ 0 ≤ c6wPlan.confidence ∧ c6wPlan.confidence ≤ 1 :=
  validate_query_plan_sanitized c6wDict c6wPlan (by rfl)

/-! ### Claim C7 — query-plan cache TTL -/

/-- Lookup after insert finds the inserted value. -/
theorem dictGet?_set_self {α : Type} (d : List (Str × α)) (k : Str) (v : α) :
    dictGet? (dictSet d k v) k = some v := by
  induction d with
  | nil => simp [dictSet, dictGet?]
  | cons kv rest ih =>
    by_cases h : kv.1 = k
    · simp [dictSet, dictGet?, h]
    · simp [dictSet, dictGet?, h, ih]

/-- Inserting preserves other entries' values at deletion time: a member of
the updated dictionary whose key differs from the inserted one was already
present. -/
theorem mem_dictSet_ne {α : Type} {d : List (Str × α)} {k : Str} {v : α}
    {kv' : Str × α} (h : kv' ∈ dictSet d k v) (hne : kv'.1 ≠ k) : kv' ∈ d := by
  induction d with
  | nil =>
    simp [dictSet] at h
    rw [h] at hne
    exact absurd rfl hne
  | cons kv rest ih =>
    by_cases hk : kv.1 = k
    · rw [dictSet] at h
      rw [if_pos hk] at h
      cases h with
      | head =>
        exact absurd hk hne
      | tail _ ht => exact List.mem_cons_of_mem _ ht
    · rw [dictSet] at h
      rw [if_neg hk] at h
      cases h with
      | head => exact List.mem_cons_self _ _
      | tail _ ht => exact List.mem_cons_of_mem _ (ih ht)

/-- The inserted entry is a member. -/
theorem mem_dictSet_self {α : Type} (d : List (Str × α)) (k : Str) (v : α) :
    (k, v) ∈ dictSet d k v := by
  induction d with
  | nil => simp [dictSet]
  | cons kv rest ih =>
    by_cases h : kv.1 = k
    · rw [dictSet, if_pos h, ← h]
      exact List.mem_cons_self _ _
    · rw [dictSet, if_neg h]
      exact List.mem_cons_of_mem _ ih

/-- The key list after insertion. -/
theorem keys_dictSet {α : Type} (d : List (Str × α)) (k : Str) (v : α) :
    (dictSet d k v).map Prod.fst
      = if (dictGet? d k).isSome then d.map Prod.fst else d.map Prod.fst ++ [k] := by
  induction d with
  | nil => simp [dictSet, dictGet?]
  | cons kv rest ih =>
    by_cases h : kv.1 = k
    · rw [dictSet, if_pos h, dictGet?, if_pos h]
      rfl
    · rw [dictSet, if_neg h, List.map_cons, ih, dictGet?, if_neg h]
      by_cases hs : (dictGet? rest k).isSome
      · rw [if_pos hs, if_pos hs]
        rfl
      · rw [if_neg hs, if_neg hs]
        rfl

/-- A key is present iff lookup succeeds. -/
theorem dictGet?_isSome_iff {α : Type} (d : List (Str × α)) (k : Str) :
    (dictGet? d k).isSome = true ↔ k ∈ d.map Prod.fst := by
  induction d with
  | nil =>
    constructor
    · intro h; exact Bool.noConfusion h
    · intro h; cases h
  | cons kv rest ih =>
    by_cases h : kv.1 = k
    · rw [dictGet?, if_pos h, List.map_cons]
      constructor
      · intro _
        exact List.mem_cons.mpr (Or.inl h.symm)
      · intro _
        rfl
    · rw [dictGet?, if_neg h]
      simp only [List.map_cons, List.mem_cons, ih]
      constructor
      · intro hs; exact Or.inr hs
      · rintro (hs | hs)
        · exact absurd hs.symm h
        · exact hs

/-- Deleting another key does not change a lookup. -/
theorem dictGet?_del_ne {α : Type} (d : List (Str × α)) (k k0 : Str) (hne : k ≠ k0) :
    dictGet? (dictDel d k0) k = dictGet? d k := by
  induction d with
  | nil => rfl
  | cons kv rest ih =>
    by_cases h : kv.1 = k0
    · rw [dictDel, if_pos h, dictGet?, if_neg (by rw [h]; exact fun hc => hne hc.symm), ih]
    · rw [dictDel, if_neg h]
      by_cases hk : kv.1 = k
      · rw [dictGet?, if_pos hk, dictGet?, if_pos hk]
      · rw [dictGet?, if_neg hk, dictGet?, if_neg hk, ih]

/-- Lookup of a deleted key fails. -/
theorem dictGet?_del_self {α : Type} (d : List (Str × α)) (k : Str) :
    dictGet? (dictDel d k) k = Option.none := by
  induction d with
  | nil => rfl
  | cons kv rest ih =>
    by_cases h : kv.1 = k
    · rw [dictDel, if_pos h]
      exact ih
    · rw [dictDel, if_neg h, dictGet?, if_neg h]
      exact ih

/-- The length after insertion. -/
theorem length_dictSet {α : Type} (d : List (Str × α)) (k : Str) (v : α) :
    (dictSet d k v).length
      = if (dictGet? d k).isSome then d.length else d.length + 1 := by
  have h := congrArg List.length (keys_dictSet d k v)
  simpa using (by
    by_cases hs : (dictGet? d k).isSome
    · rw [if_pos hs]
      have := congrArg List.length (keys_dictSet d k v)
      rw [if_pos hs] at this
      simpa using this
    · rw [if_neg hs]
      have := congrArg List.length (keys_dictSet d k v)
      rw [if_neg hs] at this
      simpa using this : (dictSet d k v).length
        = if (dictGet? d k).isSome then d.length else d.length + 1)

/-- The first-minimum helper of `oldestKey` returns the key of an entry whose
timestamp is a lower bound for the candidate and the whole list. -/
theorem oldestKeyAux_spec (best : Str × Rat) (l : List (Str × Rat)) :
    ∃ v0, ((oldestKeyAux best l, v0) = best ∨ (oldestKeyAux best l, v0) ∈ l)
      ∧ v0 ≤ best.2 ∧ ∀ kv ∈ l, v0 ≤ kv.2 := by
  induction l generalizing best with
  | nil =>
    refine ⟨best.2, Or.inl ?_, le_refl _, by intro kv hkv; cases hkv⟩
    rw [oldestKeyAux]
  | cons kv rest ih =>
    rw [oldestKeyAux]
    by_cases hlt : kv.2 < best.2
    · rw [if_pos hlt]
      obtain ⟨v0, hmem, hle, hall⟩ := ih kv
      refine ⟨v0, ?_, le_of_lt (lt_of_le_of_lt hle hlt), ?_⟩
      · rcases hmem with hm | hm
        · exact Or.inr (by rw [hm]; exact List.mem_cons_self _ _)
        · exact Or.inr (List.mem_cons_of_mem _ hm)
      · intro kv' hkv'
        cases hkv' with
        | head => exact hle
        | tail _ ht => exact hall _ ht
    · rw [if_neg hlt]
      obtain ⟨v0, hmem, hle, hall⟩ := ih best
      refine ⟨v0, ?_, hle, ?_⟩
      · rcases hmem with hm | hm
        · exact Or.inl hm
        · exact Or.inr (List.mem_cons_of_mem _ hm)
      · intro kv' hkv'
        cases hkv' with
        | head => exact le_trans hle (le_of_not_lt hlt)
        | tail _ ht => exact hall _ ht

/-- `oldestKey` returns the key of a minimal-timestamp entry. -/
theorem oldestKey_spec (l : List (Str × Rat)) (k0 : Str)
    (h : oldestKey l = some k0) :
    ∃ v0, (k0, v0) ∈ l ∧ ∀ kv ∈ l, v0 ≤ kv.2 := by
  cases l with
  | nil => cases h
  | cons kv rest =>
    rw [oldestKey] at h
    cases h
    obtain ⟨v0, hmem, hle, hall⟩ := oldestKeyAux_spec kv rest
    refine ⟨v0, ?_, ?_⟩
    · rcases hmem with hm | hm
      · exact (by rw [hm]; exact List.mem_cons_self _ _)
      · exact List.mem_cons_of_mem _ hm
    · intro kv' hkv'
      cases hkv' with
      | head => exact hle
      | tail _ ht => exact hall _ ht

/-- In a ≥2-element dictionary with distinct keys, some entry has a key other
than `k`. -/
theorem exists_key_ne {α : Type} (l : List (Str × α)) (k : Str)
    (hnodup : (l.map Prod.fst).Nodup) (hlen : 2 ≤ l.length) :
    ∃ kv ∈ l, kv.1 ≠ k := by
  cases l with
  | nil => simp at hlen
  | cons a t =>
    cases t with
    | nil => simp at hlen
    | cons b t2 =>
      have h1 := List.nodup_cons.mp hnodup
      have hab : a.1 ≠ b.1 := by
        intro h
        exact h1.1 (by rw [h]; exact List.mem_cons_self _ _)
      by_cases ha : a.1 = k
      · refine ⟨b, List.mem_cons_of_mem a (List.mem_cons_self b t2), ?_⟩
        intro hb
        exact hab (by rw [ha, hb])
      · exact ⟨a, List.mem_cons_self a (b :: t2), ha⟩

/-- Two entries with the same key agree when keys are distinct. -/
theorem key_unique {α : Type} {l : List (Str × α)} {k : Str} {a b : α}
    (hnodup : (l.map Prod.fst).Nodup) (ha : (k, a) ∈ l) (hb : (k, b) ∈ l) : a = b := by
  induction l with
  | nil => cases ha
  | cons kv rest ih =>
    simp only [List.map_cons, List.nodup_cons] at hnodup
    cases ha with
    | head =>
      cases hb with
      | head => rfl
      | tail _ htb =>
        exact absurd (List.mem_map_of_mem Prod.fst htb) hnodup.1
    | tail _ hta =>
      cases hb with
      | head =>
        exact absurd (List.mem_map_of_mem Prod.fst hta) hnodup.1
      | tail _ htb => exact ih hnodup.2 hta htb

/-- Keys stay distinct under insertion. -/
theorem nodup_keys_dictSet {α : Type} (d : List (Str × α)) (k : Str) (v : α)
    (hnodup : (d.map Prod.fst).Nodup) : ((dictSet d k v).map Prod.fst).Nodup := by
  rw [keys_dictSet]
  by_cases hs : (dictGet? d k).isSome
  · rw [if_pos hs]
    exact hnodup
  · rw [if_neg hs]
    have hk : k ∉ d.map Prod.fst := by
      intro hmem
      exact hs ((dictGet?_isSome_iff d k).mpr hmem)
    rw [List.nodup_append]
    exact ⟨hnodup, List.nodup_singleton k, by
      intro a hmem hcon
      simp only [List.mem_singleton] at hcon
      rw [hcon] at hmem
      exact hk hmem⟩

/-- `Bool` equality from logical equivalence. -/
theorem bool_eq_of_iff {a b : Bool} (h : a = true ↔ b = true) : a = b := by
  cases a <;> cases b <;> simp_all

/-- After `_cache_plan` under real-execution assumptions (both cache dicts
keyed identically, distinct keys, all existing stamps older than the insert
time), the inserted entry survives the possible LRU eviction. -/
theorem cachePlan_preserves (st : LLMCache) (t0 : Rat) (pid q : Str) (plan : QueryPlan)
    (hkeys : st.plans.map Prod.fst = st.stamps.map Prod.fst)
    (hnodup : (st.stamps.map Prod.fst).Nodup)
    (hfresh : ∀ kv ∈ st.stamps, kv.2 < t0) :
    dictGet? (cachePlan st t0 pid q plan).plans (cacheKey pid q) = some plan
    ∧ dictGet? (cachePlan st t0 pid q plan).stamps (cacheKey pid q) = some t0 := by
  set k := cacheKey pid q with hkdef
  have hp1 : dictGet? (dictSet st.plans k plan) k = some plan := dictGet?_set_self _ _ _
  have hs1 : dictGet? (dictSet st.stamps k t0) k = some t0 := dictGet?_set_self _ _ _
  have hbase : st.plans.length = st.stamps.length := by
    have := congrArg List.length hkeys
    simpa using this
  have hlen_eq : (dictSet st.plans k plan).length = (dictSet st.stamps k t0).length := by
    rw [length_dictSet, length_dictSet]
    have h1 := dictGet?_isSome_iff st.plans k
    have h2 := dictGet?_isSome_iff st.stamps k
    rw [hkeys] at h1
    have hiff : (dictGet? st.plans k).isSome = (dictGet? st.stamps k).isSome :=
      bool_eq_of_iff ⟨fun h => h2.mpr (h1.mp h), fun h => h1.mpr (h2.mp h)⟩
    rw [hiff]
    by_cases hs : (dictGet? st.stamps k).isSome
    · rw [if_pos hs, if_pos hs, hbase]
    · rw [if_neg hs, if_neg hs, hbase]
  unfold cachePlan
  rw [← hkdef]
  by_cases hlen : 1000 < (dictSet st.plans k plan).length
  · rw [if_pos hlen]
    cases hok : oldestKey (dictSet st.stamps k t0) with
    | none => exact ⟨hp1, hs1⟩
    | some k0 =>
      have hnodup1 : ((dictSet st.stamps k t0).map Prod.fst).Nodup :=
        nodup_keys_dictSet _ _ _ hnodup
      have hk0 : k0 ≠ k := by
        obtain ⟨v0, hmem0, hmin⟩ := oldestKey_spec _ _ hok
        intro hcon
        subst hcon
        have hv0 : v0 = t0 := key_unique hnodup1 hmem0 (mem_dictSet_self _ _ _)
        have h2le : 2 ≤ (dictSet st.stamps k t0).length := by omega
        obtain ⟨kvO, hkvO, hkO⟩ := exists_key_ne _ k hnodup1 h2le
        have hkvO_old : kvO ∈ st.stamps := mem_dictSet_ne hkvO hkO
        have hlt := hfresh kvO hkvO_old
        have hge := hmin kvO hkvO
        rw [hv0] at hge
        exact absurd (lt_of_le_of_lt hge hlt) (lt_irrefl t0)
      constructor
      · exact (dictGet?_del_ne _ _ _ (fun h => hk0 h.symm)).trans hp1
      · exact (dictGet?_del_ne _ _ _ (fun h => hk0 h.symm)).trans hs1
  · rw [if_neg hlen]
    exact ⟨hp1, hs1⟩

/-- Claim C7: once a plan is cached for `(project_id, query)` at time `t0`
(under real-execution cache invariants: both dicts share their key list, keys
are distinct, and all previously cached stamps are older than `t0`), every
call to `parse_query_with_llm` with a query identical up to lowercasing and
stripping, made less than TTL seconds after caching, returns the identical
cached plan from the cache, leaves the cache unchanged, and never consults
the LLM oracle (the result is the same for every oracle and API-key state);
once the TTL has elapsed, the lookup discards the entry from both dicts. -/
theorem cache_ttl_roundtrip (st : LLMCache) (t0 now ttl : Rat) (pid q q' : Str)
    (plan : QueryPlan) (apiKey : Bool) (llm : Nat → Except PyErr (List (Str × PyVal)))
    (hkeys : st.plans.map Prod.fst = st.stamps.map Prod.fst)
    (hnodup : (st.stamps.map Prod.fst).Nodup)
    (hfresh : ∀ kv ∈ st.stamps, kv.2 < t0)
    (hq : pyStrip (lowerStr q') = pyStrip (lowerStr q)) :
    (now - t0 < ttl →
      parse_query_with_llm (cachePlan st t0 pid q plan) now ttl pid q' apiKey llm
        = (ParseOutcome.fromCache plan, cachePlan st t0 pid q plan))
    ∧ (ttl ≤ now - t0 →
      (getCachedPlan (cachePlan st t0 pid q plan) now ttl pid q').1 = Option.none
      ∧ dictGet? (getCachedPlan (cachePlan st t0 pid q plan) now ttl pid q').2.plans
          (cacheKey pid q') = Option.none
      ∧ dictGet? (getCachedPlan (cachePlan st t0 pid q plan) now ttl pid q').2.stamps
          (cacheKey pid q') = Option.none) := by
  have hkey : cacheKey pid q' = cacheKey pid q := by
    unfold cacheKey
    rw [hq]
  obtain ⟨hp1, hs1⟩ := cachePlan_preserves st t0 pid q plan hkeys hnodup hfresh
  constructor
  · intro httl
    unfold parse_query_with_llm
    unfold getCachedPlan
    rw [hkey]
    dsimp only
    rw [hp1]
    dsimp only
    rw [hs1]
    simp only [Option.getD_some]
    rw [if_pos httl]
  · intro httl
    unfold getCachedPlan
    rw [hkey]
    dsimp only
    rw [hp1]
    dsimp only
    rw [hs1]
    simp only [Option.getD_some]
    rw [if_neg (not_lt.mpr httl)]
    exact ⟨rfl, dictGet?_del_self _ _, dictGet?_del_self _ _⟩

theorem cache_ttl_roundtrip_witness :
    parse_query_with_llm (cachePlan ⟨[], []⟩ 0 ("p".data) ("A ".data) planW) 1 600
        ("p".data) (" a".data) true (fun _ => Except.error PyErr.llmError)
      = (ParseOutcome.fromCache planW, cachePlan ⟨[], []⟩ 0 ("p".data) ("A ".data) planW) :=
  (cache_ttl_roundtrip ⟨[], []⟩ 0 1 600 ("p".data) ("A ".data) (" a".data) planW true
      (fun _ => Except.error PyErr.llmError) rfl (by simp) (by simp) (by decide)).1
    (by simp)
